import Mathlib

/-!
The packed multi-sequence allocator `xtd::make_contiguous_objects`: layout arithmetic and
phased construction.

A shallow embedding of `libcxx/include/__memory/make_contiguous_objects.h`.

* Addresses, `std::size_t` and `std::uintptr_t` values are natural numbers below `2 ^ w`,
  where `w` is the width of a machine word; every arithmetic operation of the source is
  followed by an explicit reduction modulo `2 ^ w`.
* A C++ type `T` is represented by the pair `(sizeof(T), alignof(T))`; a parameter pack is a list.
* The memory source (`allocate`) and the element constructor (`construct`) are external
  collaborators and are parameters of the model.  Everything observable that the code does
  with them is recorded in a trace of `Event`s.
-/

namespace xtd

/-! ## Data model -/

/-- The two properties of an element type `T` the layout code reads: `sizeof(T)`, `alignof(T)`. -/
structure ElemType where
  size : Nat
  align : Nat
deriving DecidableEq, Repr, Inhabited

/-- Reduction of an arithmetic result to a `w`-bit unsigned machine word. -/
def wrap (w x : Nat) : Nat := x % 2 ^ w

/-- Source `span<T>`: a begin/end pair of addresses of elements of type `T`. -/
structure span where
  T : ElemType
  m_begin : Nat
  m_end : Nat
deriving DecidableEq, Repr, Inhabited

/-- The number of elements in the range `[m_begin, m_end)`, as a pointer walk from one end to
the other counts them (`std::__reverse_destroy(sp.begin(), sp.end())` steps from `m_end` down to
`m_begin`): the byte distance modulo `2 ^ w`, over `sizeof(T)`. -/
def span.extent (w : Nat) (s : span) : Nat :=
  wrap w (s.m_end + (2 ^ w - s.m_begin)) / s.T.size

/-- Source `span::size()`: `std::size_t size() const { return m_end - m_begin; }`.  The pointer
difference is a signed `ptrdiff_t`: the byte distance `d`, read as a signed `w`-bit value
(`d` itself below `2 ^ (w - 1)`, and `d - 2 ^ w` from there on), divided by `sizeof(T)` with
the quotient truncated toward zero; the result is then converted to `std::size_t`. -/
def span.size (w : Nat) (s : span) : Nat :=
  let d := wrap w (s.m_end + (2 ^ w - s.m_begin))
  if d < 2 ^ (w - 1) then d / s.T.size
  else wrap w (2 ^ w - (2 ^ w - d) / s.T.size)

/-- Source `findDistanceOfNextAlignedPosition`:
`pos ? ((pos - 1u + desiredAlignment) & -desiredAlignment) - pos : 0`. -/
def findDistanceOfNextAlignedPosition (w pos desiredAlignment : Nat) : Nat :=
  if pos ≠ 0 then
    wrap w ((wrap w (pos - 1 + desiredAlignment) &&& wrap w (2 ^ w - desiredAlignment))
      + (2 ^ w - pos))
  else 0

/-- Source `ArraySize<T>`: the requested element count of a sequence of `T`. -/
structure ArraySize where
  T : ElemType
  m_count : Nat
deriving DecidableEq, Repr

/-- Source `ArraySize::numBytes`: `m_count * sizeof(T)` in `std::size_t`. -/
def ArraySize.numBytes (w : Nat) (init : ArraySize) : Nat :=
  wrap w (init.m_count * init.T.size)

/-- Source `addRequiredBytes`: the new value of `pos` after
`pos += findDistanceOfNextAlignedPosition(pos, alignof(T)) + init.numBytes()`. -/
def addRequiredBytes (w : Nat) (init : ArraySize) (pos : Nat) : Nat :=
  wrap w (pos + wrap w (findDistanceOfNextAlignedPosition w pos init.T.align + init.numBytes w))

/-- Source `setRange`: the view written to `rng` and the new value of `mem`. -/
def setRange (w : Nat) (init : ArraySize) (mem : Nat) : span × Nat :=
  let mem1 := wrap w (mem + findDistanceOfNextAlignedPosition w mem init.T.align)
  let mem2 := wrap w (mem1 + init.numBytes w)
  (⟨init.T, mem1, mem2⟩, mem2)

/-- Alignment of `aligned_storage<Args...>`: `alignas(Args...)` on an empty struct selects the
strictest of the listed alignments, and `1` for an empty pack. -/
def alignofStorage (Ts : List ElemType) : Nat :=
  Ts.foldl (fun acc T => max acc T.align) 1

/-- Size of `aligned_storage<Args...>`: the only member is `std::byte buf[alignof(dummy)]` and
the struct carries the same `alignas`, so the size is the alignment. -/
def sizeofStorage (Ts : List ElemType) : Nat :=
  alignofStorage Ts

/-- The fold `((addRequiredBytes(args, numBytes), ...))` of `make_contiguous_layout`,
left to right, started at `numBytes`. -/
def addRequiredBytesAll (w : Nat) : List ArraySize → Nat → Nat
  | [], numBytes => numBytes
  | init :: rest, numBytes => addRequiredBytesAll w rest (addRequiredBytes w init numBytes)

/-- The fold `(setRange(args, targs, mem), ...)` of `make_contiguous_layout`, left to right. -/
def setRangeAll (w : Nat) : List ArraySize → Nat → List span
  | [], _ => []
  | init :: rest, mem => (setRange w init mem).1 :: setRangeAll w rest (setRange w init mem).2

/-- The byte total of `make_contiguous_layout` after the final padding step
`numBytes += findDistanceOfNextAlignedPosition(numBytes, alignof(Storage))`. -/
def paddedNumBytes (w : Nat) (args : List ArraySize) : Nat :=
  let numBytes := addRequiredBytesAll w args 0
  wrap w (numBytes + findDistanceOfNextAlignedPosition w numBytes
    (alignofStorage (args.map (·.T))))

/-- The unit count `numElements = numBytes / sizeof(Storage)` of `make_contiguous_layout`. -/
def numElements (w : Nat) (args : List ArraySize) : Nat :=
  paddedNumBytes w args / sizeofStorage (args.map (·.T))

/-- What the code does with its collaborators, in program order. -/
inductive Event
  /-- a call `allocator_traits::allocate(__mem_alloc, n)` -/
  | allocate (n : Nat)
  /-- a completed construction of element `idx` of the view at tuple position `seq` -/
  | construct (seq idx : Nat) (args : List Nat)
  /-- a destructor call on element `idx` of the view at tuple position `seq` -/
  | destroy (seq idx : Nat)
  /-- a call `allocator_traits::deallocate(__mem_alloc, ptr, n)` -/
  | deallocate (ptr n : Nat)
  /-- a call of the global `::operator delete(ptr)` with a non-null pointer -/
  | operator_delete (ptr : Nat)
deriving DecidableEq, Repr

/-- Source `make_contiguous_layout`.  `allocate n` is the memory source: the address of the
region it returns, or the failure it raises.  The result is the trace and either the failure
or the tuple of views. -/
def make_contiguous_layout (w : Nat) (allocate : Nat → Except Nat Nat) (args : List ArraySize) :
    List Event × Except Nat (List span) :=
  let n := numElements w args
  match allocate n with
  | .error e => ([Event.allocate n], .error e)
  | .ok amem => ([Event.allocate n], .ok (setRangeAll w args amem))

/-! ## Initializer configurations -/

/-- The command tags `default_ctor_t`, `ctor_t`, `value_ctor_t`, `fill_ctor_t`, `aggregate_t`,
`input_iterator_t`, `functor_t` of the source. -/
inductive Command
  | default_ctor_t
  | ctor_t
  | value_ctor_t
  | fill_ctor_t
  | aggregate_t
  | input_iterator_t
  | functor_t
deriving DecidableEq, Repr

/-- The member `m_args` of `InitializerConfiguration<C, T>`, for the types `T` the `arg`
overloads produce: a tuple of forwarded arguments, the `int` zero of `default_ctor`, an input
iterator (the items it yields, in order) or a generator (its successive results). -/
inductive Payload
  | tuple (args : List Nat)
  | zero
  | iterator (items : List Nat)
  | generator (results : List Nat)
deriving DecidableEq, Repr

/-- The pack that `std::apply(..., ac.m_args)` expands a payload to. -/
def Payload.apply : Payload → List Nat
  | .tuple args => args
  | _ => []

/-- Source `InitializerConfiguration<C, T>`. -/
structure InitializerConfiguration where
  command : Command
  m_count : Nat
  m_args : Payload
deriving DecidableEq, Repr

/-- Source `arg(ctor_t, count, args...)`. -/
def arg_ctor (count : Nat) (args : List Nat) : InitializerConfiguration :=
  ⟨.ctor_t, count, .tuple args⟩

/-- Source `arg(value_ctor_t, count, args...)`. -/
def arg_value_ctor (count : Nat) (args : List Nat) : InitializerConfiguration :=
  ⟨.value_ctor_t, count, .tuple args⟩

/-- Source `arg(fill_ctor_t, count, args...)`. -/
def arg_fill_ctor (count : Nat) (args : List Nat) : InitializerConfiguration :=
  ⟨.fill_ctor_t, count, .tuple args⟩

/-- Source `arg(aggregate_t, count, args...)`. -/
def arg_aggregate (count : Nat) (args : List Nat) : InitializerConfiguration :=
  ⟨.aggregate_t, count, .tuple args⟩

/-- Source `arg(std::size_t count)`, which is `arg(ctor, count)`. -/
def arg_count (count : Nat) : InitializerConfiguration :=
  arg_ctor count []

/-- Source `arg(default_ctor_t, count)`. -/
def arg_default_ctor (count : Nat) : InitializerConfiguration :=
  ⟨.default_ctor_t, count, .zero⟩

/-- Source `arg(input_iterator_t, count, it)`. -/
def arg_input_iterator (count : Nat) (it : List Nat) : InitializerConfiguration :=
  ⟨.input_iterator_t, count, .iterator it⟩

/-- Source `arg(functor_t, count, fn)`. -/
def arg_functor (count : Nat) (fn : List Nat) : InitializerConfiguration :=
  ⟨.functor_t, count, .generator fn⟩

/-- One element of the pack `Initializers... args` of `make_contiguous_objects`: an integral
count, or a configuration built by `arg`. -/
inductive Initializer
  | count (sz : Nat)
  | config (c : InitializerConfiguration)
deriving DecidableEq, Repr

/-- Source `get_size`, both overloads. -/
def get_size : Initializer → Nat
  | .count sz => sz
  | .config t => t.m_count

/-- Source `convert_arg`, both overloads. -/
def convert_arg : Initializer → InitializerConfiguration
  | .count sz => arg_count sz
  | .config t => t

/-! ## Element construction and rollback -/

/-- Modelled from the spec: `std::__reverse_destroy(first, last)` of libc++ is not part of the
source file.  Spec, section 4.5: the already constructed elements are destroyed in reverse order.
Elements are named by their index in the view at tuple position `seq`; the range is
`[begin, begin + n)`. -/
def reverse_destroy (seq n : Nat) : List Event :=
  (List.range n).reverse.map (Event.destroy seq)

/-- Modelled from the spec: `std::__allocator_destroy_multidimensional(alloc, first, last)` of
libc++ is not part of the source file.  Spec, section 4.5, step 2: destroy `[begin, current)`
in reverse order. -/
def allocator_destroy_multidimensional (seq n : Nat) : List Event :=
  (List.range n).reverse.map (Event.destroy seq)

/-- The loop `for (; n != 0; --n, ++current) construct(alloc, addressof(*current), args...)`
of `uninitialized_allocator_construct_n`.  `construct seq idx args` is the element
constructor: `none` when it completes, `some e` when it throws `e`.  The result is the trace of
completed constructions, the value of `current` when the loop is left, and the exception that
ended it, if any. -/
def constructLoop (construct : Nat → Nat → List Nat → Option Nat) (seq : Nat) (args : List Nat) :
    Nat → Nat → List Event × Nat × Option Nat
  | 0, current => ([], current, none)
  | n + 1, current =>
    match construct seq current args with
    | some e => ([], current, some e)
    | none =>
      let r := constructLoop construct seq args n (current + 1)
      (Event.construct seq current args :: r.1, r.2)

/-- Source `uninitialized_allocator_construct_n`: the loop, under an exception guard that
destroys `[first, current)` when the loop is left by an exception. -/
def uninitialized_allocator_construct_n (construct : Nat → Nat → List Nat → Option Nat)
    (seq n : Nat) (args : List Nat) : List Event × Option Nat :=
  let r := constructLoop construct seq args n 0
  match r.2.2 with
  | some e => (r.1 ++ allocator_destroy_multidimensional seq r.2.1, some e)
  | none => (r.1, none)

/-- Modelled from the spec: `std::uninitialized_default_construct_n` is not part of the source
file.  Spec, section 4.4, Default: construct every element with no arguments; section 4.5,
steps 1 and 2: left to right, and on a failure destroy `[begin, current)` in reverse order and
propagate the failure. -/
def uninitialized_default_construct_n (construct : Nat → Nat → List Nat → Option Nat)
    (seq n : Nat) : List Event × Option Nat :=
  uninitialized_allocator_construct_n construct seq n []

/-- Modelled from the spec: `std::__uninitialized_allocator_value_construct_n_multidimensional`
is not part of the source file.  Spec, section 4.4, ValueCtor: value-construct every element;
section 4.5, steps 1 and 2 for the order and the rollback. -/
def uninitialized_allocator_value_construct_n_multidimensional
    (construct : Nat → Nat → List Nat → Option Nat) (seq n : Nat) : List Event × Option Nat :=
  uninitialized_allocator_construct_n construct seq n []

/-- Modelled from the spec: `std::__uninitialized_allocator_fill_n_multidimensional` is not part
of the source file.  Spec, section 4.4, FillCtor: construct every element as a copy of the
supplied value; section 4.5, steps 1 and 2 for the order and the rollback. -/
def uninitialized_allocator_fill_n_multidimensional
    (construct : Nat → Nat → List Nat → Option Nat) (seq n : Nat) (args : List Nat) :
    List Event × Option Nat :=
  uninitialized_allocator_construct_n construct seq n args

/-- The four `if constexpr` branches at the head of `initRanges`, for the view at tuple
position `tupPos` holding `n = rng.size()` elements.  The tags `aggregate_t`,
`input_iterator_t` and `functor_t` match none of the branches. -/
def initRange (construct : Nat → Nat → List Nat → Option Nat) (tupPos n : Nat)
    (ac : InitializerConfiguration) : List Event × Option Nat :=
  match ac.command with
  | .default_ctor_t => uninitialized_default_construct_n construct tupPos n
  | .ctor_t => uninitialized_allocator_construct_n construct tupPos n ac.m_args.apply
  | .value_ctor_t => uninitialized_allocator_value_construct_n_multidimensional construct tupPos n
  | .fill_ctor_t =>
    uninitialized_allocator_fill_n_multidimensional construct tupPos n ac.m_args.apply
  | _ => ([], none)

/-- The constant `useAlloc` of `initRanges`. -/
def useAlloc (c : Command) : Bool :=
  c == .value_ctor_t || c == .fill_ctor_t

/-- The rollback of the exception guard of `initRanges`. -/
def initRangesRollback (c : Command) (tupPos n : Nat) : List Event :=
  if useAlloc c then allocator_destroy_multidimensional tupPos n else reverse_destroy tupPos n

/-- Source `initRanges(alloc, t, ac, acs...)`: the trace, and the exception that leaves the
call, if any.  The empty list stands for the recursion not taken when `sizeof...(acs)` is `0`.
The construction branches are handed `rng.size()`; the exception guard walks
`[rng.begin(), rng.end())`. -/
def initRanges (w : Nat) (construct : Nat → Nat → List Nat → Option Nat) (t : List span) :
    List InitializerConfiguration → List Event × Option Nat
  | [] => ([], none)
  | ac :: acs =>
    let tupPos := t.length - acs.length - 1
    let rng := t.getD tupPos default
    let r := initRange construct tupPos (rng.size w) ac
    match r.2 with
    | some e => (r.1, some e)
    | none =>
      let rest := initRanges w construct t acs
      match rest.2 with
      | some e => (r.1 ++ rest.1 ++ initRangesRollback ac.command tupPos (rng.extent w), some e)
      | none => (r.1 ++ rest.1, none)

/-- The global `::operator delete(ptr)`; it has no effect on a null pointer. -/
def operator_delete (ptr : Nat) : List Event :=
  if ptr = 0 then [] else [Event.operator_delete ptr]

/-- Source `MemGuard`. -/
structure MemGuard where
  m_mem : Nat
deriving DecidableEq, Repr

/-- Source `MemGuard::release`. -/
def MemGuard.release (_mg : MemGuard) : MemGuard := ⟨0⟩

/-- Source `MemGuard::~MemGuard`. -/
def MemGuard.destructor (mg : MemGuard) : List Event := operator_delete mg.m_mem

/-- Source `make_contiguous_objects<Alloc, Args...>(alloc, args...)`.  A sequence is the pair of
its element type (from `Args...`) and its initializer (from `args...`).  `std::get<0>` needs a
non-empty pack; the default view stands in for it on the empty list. -/
def make_contiguous_objects (w : Nat) (allocate : Nat → Except Nat Nat)
    (construct : Nat → Nat → List Nat → Option Nat) (args : List (ElemType × Initializer)) :
    List Event × Except Nat (List span) :=
  let r := make_contiguous_layout w allocate (args.map (fun a => ⟨a.1, get_size a.2⟩))
  match r.2 with
  | .error e => (r.1, .error e)
  | .ok layout =>
    let mg : MemGuard := ⟨(layout.headD default).m_begin⟩
    let ri := initRanges w construct layout (args.map (fun a => convert_arg a.2))
    match ri.2 with
    | some e => (r.1 ++ ri.1 ++ mg.destructor, .error e)
    | none => (r.1 ++ ri.1 ++ mg.release.destructor, .ok layout)

/-! ## Teardown -/

/-- Source `get_adjacent_address<T>(end)`, for a `T` of alignment `alignofT`. -/
def get_adjacent_address (w alignofT endi : Nat) : Nat :=
  wrap w (endi + findDistanceOfNextAlignedPosition w endi alignofT)

/-- The fold `(std::__reverse_destroy(sp.begin(), sp.end()), ...)` of
`destroy_contiguous_objects`, over the views from tuple position `seq` on. -/
def reverseDestroyAll (w : Nat) : Nat → List span → List Event
  | _, [] => []
  | seq, sp :: rest => reverse_destroy seq (sp.extent w) ++ reverseDestroyAll w (seq + 1) rest

/-- Source `destroy_contiguous_objects`: the trace.  `std::get<0>` and
`std::get<sizeof...(Args)-1>` need a non-empty tuple; the default view stands in for them on the
empty list. -/
def destroy_contiguous_objects (w : Nat) (t : List span) : List Event :=
  let Ts := t.map (·.T)
  let begin_ := get_adjacent_address w (alignofStorage Ts) (t.headD default).m_begin
  let end_ := get_adjacent_address w (alignofStorage Ts) (t.getLastD default).m_end
  let numBytes := wrap w (end_ + (2 ^ w - begin_))
  let numElements := numBytes / sizeofStorage Ts
  reverseDestroyAll w 0 t ++ [Event.deallocate begin_ numElements]

/-! ## Vocabulary of the statements -/

/-- Every element alignment is a power of two that fits a `w`-bit word. -/
def PowTwoAligns (w : Nat) (args : List ArraySize) : Prop :=
  ∀ init ∈ args, ∃ k, k < w ∧ init.T.align = 2 ^ k

/-- The number of bytes from `pos` to the next multiple of `a`. -/
def padTo (pos a : Nat) : Nat := (a - pos % a) % a

/-- The position reached from `pos` by packing the sequences one after the other, each padded
to its alignment, in unbounded arithmetic. -/
def packedSpan : List ArraySize → Nat → Nat
  | [], pos => pos
  | init :: rest, pos =>
    packedSpan rest (pos + padTo pos init.T.align + init.m_count * init.T.size)

/-- The construct events of a trace, in order. -/
def constructs (tr : List Event) : List (Nat × Nat) :=
  tr.filterMap (fun ev => match ev with
    | .construct seq idx _ => some (seq, idx)
    | _ => none)

/-- The destroy events of a trace, in order. -/
def destroys (tr : List Event) : List (Nat × Nat) :=
  tr.filterMap (fun ev => match ev with
    | .destroy seq idx => some (seq, idx)
    | _ => none)

/-! ## Vocabulary of the trace statements -/

/-- The elements `0, ..., n - 1` of the view at tuple position `seq`, first to last. -/
def elementsOf (seq n : Nat) : List (Nat × Nat) :=
  (List.range n).map (fun idx => (seq, idx))

/-- All elements of consecutive views holding `counts` elements, the first view at tuple
position `seq`: view by view, first to last inside each view. -/
def allElementsFrom : Nat → List Nat → List (Nat × Nat)
  | _, [] => []
  | seq, n :: rest => elementsOf seq n ++ allElementsFrom (seq + 1) rest

/-- The body of `initRanges` with the tuple position and the size of each view made explicit:
`initRanges w construct t acs` is `initRangesFrom construct tupPos l`, where `l` pairs the sizes
of the last views of `t` with `acs`, for views whose `size()` is the number of elements of
`[begin, end)` (`initRanges_eq_initRangesFrom`). -/
def initRangesFrom (construct : Nat → Nat → List Nat → Option Nat) :
    Nat → List (Nat × InitializerConfiguration) → List Event × Option Nat
  | _, [] => ([], none)
  | tupPos, (n, ac) :: acs =>
    let r := initRange construct tupPos n ac
    match r.2 with
    | some e => (r.1, some e)
    | none =>
      let rest := initRangesFrom construct (tupPos + 1) acs
      match rest.2 with
      | some e => (r.1 ++ rest.1 ++ initRangesRollback ac.command tupPos n, some e)
      | none => (r.1 ++ rest.1, none)

/-- The commands for which `initRanges` has a construction branch. -/
def Command.hasBranch (c : Command) : Bool :=
  c == .default_ctor_t || c == .ctor_t || c == .value_ctor_t || c == .fill_ctor_t

/-- An event that is neither a call of the memory source nor of `::operator delete`. -/
def Event.isElementEvent : Event → Bool
  | .construct _ _ _ => true
  | .destroy _ _ => true
  | _ => false

/-- The byte offsets the `addRequiredBytes` pass goes through, started at `pos`: for each
sequence the position after the padding of `findDistanceOfNextAlignedPosition` has been added
(where the sequence starts) and the position after `numBytes()` has been added as well (where
it ends, the new value of `pos`). -/
def addRequiredBytesOffsets (w : Nat) : List ArraySize → Nat → List (Nat × Nat)
  | [], _ => []
  | init :: rest, pos =>
    (wrap w (pos + findDistanceOfNextAlignedPosition w pos init.T.align),
      addRequiredBytes w init pos)
      :: addRequiredBytesOffsets w rest (addRequiredBytes w init pos)

/-- The elements of consecutive views holding `counts` elements, the first view at tuple
position `seq`: view by view, last to first inside each view. -/
def teardownOrderFrom : Nat → List Nat → List (Nat × Nat)
  | _, [] => []
  | seq, n :: rest => (elementsOf seq n).reverse ++ teardownOrderFrom (seq + 1) rest

/-- The argument pack that the branch of `initRanges` for the command of `ac` passes to the
element constructor: the expanded `m_args` for `ctor_t` and `fill_ctor_t`, none for
`default_ctor_t` and `value_ctor_t`. -/
def constructArgs (ac : InitializerConfiguration) : List Nat :=
  match ac.command with
  | .ctor_t => ac.m_args.apply
  | .fill_ctor_t => ac.m_args.apply
  | _ => []

/-! ## Arithmetic of the alignment distance -/

theorem land_neg_two_pow (w k x : Nat) (hk : k ≤ w) (hx : x < 2 ^ w) :
    x &&& (2 ^ w - 2 ^ k) = x / 2 ^ k * 2 ^ k := by
  have hm : 2 ^ w - 2 ^ k = 2 ^ k * (2 ^ (w - k) - 1) := by
    rw [Nat.mul_sub, ← pow_add, Nat.add_sub_cancel' hk, mul_one]
  apply Nat.eq_of_testBit_eq
  intro i
  rw [Nat.testBit_and, hm, Nat.mul_comm (x / 2 ^ k), Nat.testBit_mul_pow_two,
    Nat.testBit_mul_pow_two, Nat.testBit_two_pow_sub_one, ← Nat.shiftRight_eq_div_pow,
    Nat.testBit_shiftRight]
  by_cases hik : k ≤ i
  · have e : k + (i - k) = i := by omega
    rw [e]
    by_cases hiw : i < w
    · have : i - k < w - k := by omega
      simp [hik, this]
    · have hlt : x < 2 ^ i := lt_of_lt_of_le hx (Nat.pow_le_pow_right (by decide) (by omega))
      simp [Nat.testBit_lt_two_pow hlt]
  · simp [hik]

theorem findDistance_eq_padTo (w k pos : Nat) (hk : k < w) (hpos : pos < 2 ^ w) :
    findDistanceOfNextAlignedPosition w pos (2 ^ k) = padTo pos (2 ^ k) := by
  unfold findDistanceOfNextAlignedPosition padTo wrap
  by_cases h0 : pos = 0
  · subst h0; simp
  rw [if_pos h0]
  have ha : 0 < 2 ^ k := Nat.two_pow_pos k
  have haM : 2 ^ k < 2 ^ w := Nat.pow_lt_pow_right (by decide) hk
  have hdvd : 2 ^ k ∣ 2 ^ w := Nat.pow_dvd_pow 2 (Nat.le_of_lt hk)
  generalize hM : 2 ^ w = M at *
  have hx : (pos - 1 + 2 ^ k) % M < M := Nat.mod_lt _ (by omega)
  rw [Nat.mod_eq_of_lt (show M - 2 ^ k < M by omega)]
  rw [← hM, land_neg_two_pow w k _ (Nat.le_of_lt hk) (by rw [hM]; exact hx), hM]
  have hxa : (pos - 1 + 2 ^ k) % M % 2 ^ k = (pos - 1) % 2 ^ k := by
    rw [Nat.mod_mod_of_dvd _ hdvd, Nat.add_mod_right]
  have hdx := Nat.div_add_mod ((pos - 1 + 2 ^ k) % M) (2 ^ k)
  have hdp := Nat.div_add_mod (pos - 1) (2 ^ k)
  have hr : (pos - 1) % 2 ^ k < 2 ^ k := Nat.mod_lt _ ha
  rw [hxa] at hdx
  have hpm : pos % 2 ^ k = ((pos - 1) % 2 ^ k + 1) % 2 ^ k := by
    conv_lhs => rw [show pos = 2 ^ k * ((pos - 1) / 2 ^ k) + ((pos - 1) % 2 ^ k + 1) by omega]
    rw [Nat.mul_add_mod]
  rw [hpm]
  generalize (pos - 1) % 2 ^ k = r at *
  generalize 2 ^ k = a at *
  rw [Nat.mul_comm] at hdx
  have hres : ((pos - 1 + a) % M / a * a + (M - pos)) % M = a - 1 - r := by
    by_cases hlt : pos - 1 + a < M
    · rw [Nat.mod_eq_of_lt hlt] at hdx ⊢
      have : (pos - 1 + a) / a * a + (M - pos) = M + (a - 1 - r) := by omega
      rw [this, Nat.add_mod_left, Nat.mod_eq_of_lt (by omega)]
    · have hx2 : (pos - 1 + a) % M = pos - 1 + a - M := by
        rw [Nat.mod_eq_sub_mod (by omega), Nat.mod_eq_of_lt (by omega)]
      rw [hx2] at hdx ⊢
      have : (pos - 1 + a - M) / a * a + (M - pos) = a - 1 - r := by omega
      rw [this, Nat.mod_eq_of_lt (by omega)]
  rw [hres]
  by_cases hra : r + 1 < a
  · rw [Nat.mod_eq_of_lt hra, Nat.mod_eq_of_lt (by omega)]; omega
  · have : r + 1 = a := by omega
    rw [this, Nat.mod_self]; simp; omega


theorem padTo_lt (pos a : Nat) (ha : 0 < a) : padTo pos a < a := Nat.mod_lt _ ha

theorem padTo_add_mod (pos a : Nat) (ha : 0 < a) : (pos + padTo pos a) % a = 0 := by
  unfold padTo
  have hr : pos % a < a := Nat.mod_lt _ ha
  have hd := Nat.div_add_mod pos a
  by_cases hz : pos % a = 0
  · rw [hz, Nat.sub_zero, Nat.mod_self, Nat.add_zero]; exact hz
  · have e : (a - pos % a) % a = a - pos % a := Nat.mod_eq_of_lt (by omega)
    have : pos + (a - pos % a) = a * (pos / a + 1) := by rw [Nat.mul_add, Nat.mul_one]; omega
    rw [e, this, Nat.mul_mod_right]

theorem padTo_le_of_mod (pos a d : Nat) (h : (pos + d) % a = 0) : padTo pos a ≤ d := by
  unfold padTo
  rcases Nat.eq_zero_or_pos a with h0 | ha
  · subst h0; simp
  have hr : pos % a < a := Nat.mod_lt _ ha
  by_cases hz : pos % a = 0
  · rw [hz, Nat.sub_zero, Nat.mod_self]; exact Nat.zero_le _
  · have e : (a - pos % a) % a = a - pos % a := Nat.mod_eq_of_lt (by omega)
    rw [e]
    by_contra hlt
    have h2 : (pos % a + d) % a = 0 := by rw [Nat.add_mod, Nat.mod_mod, ← Nat.add_mod]; exact h
    rw [Nat.mod_eq_of_lt (by omega)] at h2
    omega

theorem padTo_eq_zero_iff (pos a : Nat) (ha : 0 < a) : padTo pos a = 0 ↔ pos % a = 0 := by
  unfold padTo
  have hr : pos % a < a := Nat.mod_lt _ ha
  constructor
  · intro h
    by_contra hz
    have e : (a - pos % a) % a = a - pos % a := Nat.mod_eq_of_lt (by omega)
    rw [e] at h
    omega
  · intro h
    rw [h, Nat.sub_zero, Nat.mod_self]

/-- C9: for every power-of-two alignment `2 ^ k` that fits a `w`-bit word and every position
`pos` below `2 ^ w`, `findDistanceOfNextAlignedPosition` returns the smallest offset that makes
`pos + offset` a multiple of the alignment: the sum is a multiple, no smaller offset gives a
multiple, the offset is below the alignment, it is zero exactly when `pos` is already a
multiple, and the result at position zero is zero.  The statement covers every `pos`, also those
for which `pos - 1 + 2 ^ k` wraps around. -/
theorem findDistanceOfNextAlignedPosition_smallest (w k pos : Nat) (hk : k < w)
    (hpos : pos < 2 ^ w) :
    (pos + findDistanceOfNextAlignedPosition w pos (2 ^ k)) % 2 ^ k = 0
    ∧ (∀ d, (pos + d) % 2 ^ k = 0 → findDistanceOfNextAlignedPosition w pos (2 ^ k) ≤ d)
    ∧ findDistanceOfNextAlignedPosition w pos (2 ^ k) < 2 ^ k
    ∧ (findDistanceOfNextAlignedPosition w pos (2 ^ k) = 0 ↔ pos % 2 ^ k = 0)
    ∧ findDistanceOfNextAlignedPosition w 0 (2 ^ k) = 0 := by
  rw [findDistance_eq_padTo w k pos hk hpos]
  exact ⟨padTo_add_mod _ _ (Nat.two_pow_pos k), fun d hd => padTo_le_of_mod _ _ d hd,
    padTo_lt _ _ (Nat.two_pow_pos k), padTo_eq_zero_iff _ _ (Nat.two_pow_pos k), rfl⟩

/-- The distance from position 12 to the next multiple of 8, on 64-bit words. -/
theorem findDistanceOfNextAlignedPosition_smallest_witness :
    3 < 64 ∧ 12 < 2 ^ 64
    ∧ ((12 + findDistanceOfNextAlignedPosition 64 12 (2 ^ 3)) % 2 ^ 3 = 0
    ∧ (∀ d, (12 + d) % 2 ^ 3 = 0 → findDistanceOfNextAlignedPosition 64 12 (2 ^ 3) ≤ d)
    ∧ findDistanceOfNextAlignedPosition 64 12 (2 ^ 3) < 2 ^ 3
    ∧ (findDistanceOfNextAlignedPosition 64 12 (2 ^ 3) = 0 ↔ 12 % 2 ^ 3 = 0)
    ∧ findDistanceOfNextAlignedPosition 64 0 (2 ^ 3) = 0) :=
  ⟨by decide, by decide, findDistanceOfNextAlignedPosition_smallest 64 3 12 (by decide) (by decide)⟩

/-! ## The views of a layout -/

theorem wrap_lt (w x : Nat) : wrap w x < 2 ^ w := Nat.mod_lt _ (Nat.two_pow_pos w)

theorem wrap_of_lt (w x : Nat) (h : x < 2 ^ w) : wrap w x = x := Nat.mod_eq_of_lt h

theorem wrap_mod_two_pow (w k x : Nat) (hk : k ≤ w) : wrap w x % 2 ^ k = x % 2 ^ k :=
  Nat.mod_mod_of_dvd x (Nat.pow_dvd_pow 2 hk)

theorem setRangeAll_length (w : Nat) (args : List ArraySize) (mem : Nat) :
    (setRangeAll w args mem).length = args.length := by
  induction args generalizing mem with
  | nil => rfl
  | cons init rest ih => simp [setRangeAll, ih]

theorem setRangeAll_map_T (w : Nat) (args : List ArraySize) (mem : Nat) :
    (setRangeAll w args mem).map (·.T) = args.map (·.T) := by
  induction args generalizing mem with
  | nil => rfl
  | cons init rest ih => simp [setRangeAll, setRange, ih]

theorem setRange_snd_lt (w : Nat) (init : ArraySize) (mem : Nat) :
    (setRange w init mem).2 < 2 ^ w := wrap_lt _ _

theorem setRange_begin_mod (w : Nat) (init : ArraySize) (mem k : Nat) (hk : k < w)
    (ha : init.T.align = 2 ^ k) (hmem : mem < 2 ^ w) :
    (setRange w init mem).1.m_begin % init.T.align = 0 := by
  simp only [setRange]
  rw [ha, findDistance_eq_padTo w k mem hk hmem, wrap_mod_two_pow w k _ (Nat.le_of_lt hk)]
  exact padTo_add_mod _ _ (Nat.two_pow_pos k)

theorem setRangeAll_begin_mod (w : Nat) (args : List ArraySize) (mem : Nat)
    (hal : PowTwoAligns w args) (hmem : mem < 2 ^ w) (i : Nat) (hi : i < args.length)
    (hj : i < (setRangeAll w args mem).length) :
    (setRangeAll w args mem)[i].m_begin % args[i].T.align = 0 := by
  induction args generalizing mem i with
  | nil => simp at hi
  | cons init rest ih =>
    cases i with
    | zero =>
      obtain ⟨k, hk, ha⟩ := hal init (List.mem_cons_self _ _)
      simpa [setRangeAll] using setRange_begin_mod w init mem k hk ha hmem
    | succ j =>
      simp only [setRangeAll, List.getElem_cons_succ]
      exact ih _ (fun x hx => hal x (List.mem_cons_of_mem _ hx)) (setRange_snd_lt _ _ _) j
        (by simpa using hi) _

/-- C5: alignment invariant.  For every list of sequences with power-of-two element alignments
and every region address below `2 ^ w` returned by the memory source, `make_contiguous_layout`
returns one view per sequence, and the begin address of view `i` is a multiple of the alignment
of the element type of sequence `i`.  The addresses are computed modulo `2 ^ w`, and the
invariant holds whether or not the walk wraps around. -/
theorem make_contiguous_layout_begin_aligned (w : Nat) (allocate : Nat → Except Nat Nat)
    (args : List ArraySize) (amem : Nat) (hal : PowTwoAligns w args)
    (hmem : allocate (numElements w args) = .ok amem) (hlt : amem < 2 ^ w) :
    ∃ layout, make_contiguous_layout w allocate args
        = ([Event.allocate (numElements w args)], .ok layout)
      ∧ layout.length = args.length
      ∧ ∀ (i : Nat) (hi : i < args.length) (hj : i < layout.length),
          layout[i].m_begin % args[i].T.align = 0 := by
  refine ⟨setRangeAll w args amem, ?_, setRangeAll_length _ _ _, ?_⟩
  · simp [make_contiguous_layout, hmem]
  · intro i hi hj
    exact setRangeAll_begin_mod w args amem hal hlt i hi hj

theorem sub_mod_cancel (M b n : Nat) (hb : b < M) (hn : n < M) :
    ((b + n) % M + (M - b)) % M = n := by
  by_cases h : b + n < M
  · rw [Nat.mod_eq_of_lt h, show b + n + (M - b) = M + n by omega, Nat.add_mod_left,
      Nat.mod_eq_of_lt hn]
  · have e : (b + n) % M = b + n - M := by
      rw [Nat.mod_eq_sub_mod (by omega), Nat.mod_eq_of_lt (by omega)]
    rw [e, show b + n - M + (M - b) = n by omega, Nat.mod_eq_of_lt hn]

theorem two_pow_pred_le (w : Nat) : 2 ^ (w - 1) ≤ 2 ^ w :=
  Nat.pow_le_pow_right (by decide) (Nat.sub_le w 1)

theorem setRange_distance (w : Nat) (init : ArraySize) (mem : Nat)
    (hno : init.m_count * init.T.size < 2 ^ w) :
    wrap w ((setRange w init mem).1.m_end + (2 ^ w - (setRange w init mem).1.m_begin))
      = init.m_count * init.T.size := by
  simp only [setRange, ArraySize.numBytes]
  rw [wrap_of_lt w _ hno]
  unfold wrap
  rw [sub_mod_cancel _ _ _ (Nat.mod_lt _ (Nat.two_pow_pos w)) hno]

theorem setRange_extent (w : Nat) (init : ArraySize) (mem : Nat)
    (hsz : 0 < init.T.size) (hno : init.m_count * init.T.size < 2 ^ w) :
    (setRange w init mem).1.extent w = init.m_count := by
  simp only [span.extent, setRange_distance w init mem hno]
  exact Nat.mul_div_cancel _ hsz

theorem setRange_size (w : Nat) (init : ArraySize) (mem : Nat)
    (hsz : 0 < init.T.size) (hno : init.m_count * init.T.size < 2 ^ (w - 1)) :
    (setRange w init mem).1.size w = init.m_count := by
  have hle := two_pow_pred_le w
  simp only [span.size, setRange_distance w init mem (by omega), if_pos hno]
  exact Nat.mul_div_cancel _ hsz

theorem setRangeAll_size (w : Nat) (args : List ArraySize) (mem : Nat) (i : Nat)
    (hi : i < args.length) (hj : i < (setRangeAll w args mem).length)
    (hsz : 0 < args[i].T.size) (hno : args[i].m_count * args[i].T.size < 2 ^ (w - 1)) :
    (setRangeAll w args mem)[i].size w = args[i].m_count := by
  induction args generalizing mem i with
  | nil => simp at hi
  | cons init rest ih =>
    cases i with
    | zero => simpa [setRangeAll] using setRange_size w init mem hsz hno
    | succ j =>
      simp only [setRangeAll, List.getElem_cons_succ]
      exact ih _ j (by simpa using hi) _ hsz hno

/-- C7: count invariant, within the range of the pointer difference.  For every list of
sequences and every region address,
`make_contiguous_layout` returns one view per sequence, and `size()` of view `i` is the count
requested for sequence `i` whenever the element size is positive and `count * sizeof(T)` is
below `2 ^ (w - 1)`, that is, fits the signed pointer difference `size()` is computed from. -/
theorem make_contiguous_layout_size_eq_count (w : Nat) (allocate : Nat → Except Nat Nat)
    (args : List ArraySize) (amem : Nat)
    (hmem : allocate (numElements w args) = .ok amem) :
    ∃ layout, make_contiguous_layout w allocate args
        = ([Event.allocate (numElements w args)], .ok layout)
      ∧ layout.length = args.length
      ∧ ∀ (i : Nat) (hi : i < args.length) (hj : i < layout.length),
          0 < args[i].T.size → args[i].m_count * args[i].T.size < 2 ^ (w - 1) →
          layout[i].size w = args[i].m_count := by
  refine ⟨setRangeAll w args amem, ?_, setRangeAll_length _ _ _, ?_⟩
  · simp [make_contiguous_layout, hmem]
  · intro i hi hj hsz hno
    exact setRangeAll_size w args amem i hi hj hsz hno

/-! ## The storage unit and the planner -/

theorem foldl_max_pow (w : Nat) (Ts : List ElemType) (j : Nat) (hj : j < w)
    (hTs : ∀ T ∈ Ts, ∃ k, k < w ∧ T.align = 2 ^ k) :
    ∃ K, K < w ∧ j ≤ K ∧ Ts.foldl (fun acc T => max acc T.align) (2 ^ j) = 2 ^ K
      ∧ ∀ T ∈ Ts, ∃ k, k ≤ K ∧ T.align = 2 ^ k := by
  induction Ts generalizing j with
  | nil => exact ⟨j, hj, le_refl _, rfl, by simp⟩
  | cons T rest ih =>
    obtain ⟨k, hk, hTk⟩ := hTs T (List.mem_cons_self _ _)
    have hmax : max (2 ^ j) T.align = 2 ^ max j k := by
      rw [hTk]
      rcases le_total j k with h | h
      · rw [max_eq_right h, max_eq_right (Nat.pow_le_pow_right (by decide) h)]
      · rw [max_eq_left h, max_eq_left (Nat.pow_le_pow_right (by decide) h)]
    obtain ⟨K, hK, hjK, hfold, hall⟩ := ih (max j k) (max_lt hj hk)
      (fun x hx => hTs x (List.mem_cons_of_mem _ hx))
    refine ⟨K, hK, le_trans (le_max_left _ _) hjK, ?_, ?_⟩
    · simpa [List.foldl_cons, hmax] using hfold
    · intro x hx
      rcases List.mem_cons.1 hx with rfl | hx
      · exact ⟨k, le_trans (le_max_right _ _) hjK, hTk⟩
      · exact hall x hx

theorem alignofStorage_pow (w : Nat) (args : List ArraySize) (hw : 0 < w)
    (hal : PowTwoAligns w args) :
    ∃ K, K < w ∧ alignofStorage (args.map (·.T)) = 2 ^ K
      ∧ ∀ init ∈ args, ∃ k, k ≤ K ∧ init.T.align = 2 ^ k := by
  have h := foldl_max_pow w (args.map (·.T)) 0 hw (by
    intro T hT
    obtain ⟨init, hin, rfl⟩ := List.mem_map.1 hT
    exact hal init hin)
  obtain ⟨K, hK, _, hfold, hall⟩ := h
  refine ⟨K, hK, by simpa [alignofStorage] using hfold, ?_⟩
  intro init hin
  exact hall init.T (List.mem_map_of_mem _ hin)

theorem packedSpan_ge (args : List ArraySize) (pos : Nat) : pos ≤ packedSpan args pos := by
  induction args generalizing pos with
  | nil => exact le_refl _
  | cons init rest ih =>
    simp only [packedSpan]
    have := ih (pos + padTo pos init.T.align + init.m_count * init.T.size)
    omega

theorem addRequiredBytes_lt (w : Nat) (init : ArraySize) (pos : Nat) :
    addRequiredBytes w init pos < 2 ^ w := wrap_lt _ _

theorem addRequiredBytesAll_lt (w : Nat) (args : List ArraySize) (pos : Nat)
    (hpos : pos < 2 ^ w) : addRequiredBytesAll w args pos < 2 ^ w := by
  induction args generalizing pos with
  | nil => exact hpos
  | cons init rest ih => exact ih _ (addRequiredBytes_lt _ _ _)

theorem addRequiredBytes_of_lt (w : Nat) (init : ArraySize) (pos k : Nat) (hk : k < w)
    (ha : init.T.align = 2 ^ k)
    (hno : pos + padTo pos init.T.align + init.m_count * init.T.size < 2 ^ w) :
    addRequiredBytes w init pos = pos + padTo pos init.T.align + init.m_count * init.T.size := by
  simp only [addRequiredBytes, ArraySize.numBytes]
  rw [ha] at hno ⊢
  rw [findDistance_eq_padTo w k pos hk (by omega), wrap_of_lt w (init.m_count * init.T.size)
    (by omega), wrap_of_lt w (padTo pos (2 ^ k) + init.m_count * init.T.size) (by omega),
    wrap_of_lt w _ (by omega)]
  omega

theorem addRequiredBytesAll_of_lt (w : Nat) (args : List ArraySize) (pos : Nat)
    (hal : PowTwoAligns w args) (hno : packedSpan args pos < 2 ^ w) :
    addRequiredBytesAll w args pos = packedSpan args pos := by
  induction args generalizing pos with
  | nil => rfl
  | cons init rest ih =>
    obtain ⟨k, hk, ha⟩ := hal init (List.mem_cons_self _ _)
    simp only [packedSpan] at hno ⊢
    have hge := packedSpan_ge rest (pos + padTo pos init.T.align + init.m_count * init.T.size)
    simp only [addRequiredBytesAll]
    rw [addRequiredBytes_of_lt w init pos k hk ha (by omega)]
    exact ih _ (fun x hx => hal x (List.mem_cons_of_mem _ hx)) hno

/-- C8: exact unit count.  The storage unit has size equal to its alignment, which is at least
every element alignment.  For power-of-two element alignments the byte total after the final
padding step is a multiple of `sizeof(Storage)`, so `numElements * sizeof(Storage)` is that
total and the division loses no bytes; and when the packed byte span from position 0, rounded
up to `alignof(Storage)` in unbounded arithmetic, is below `2 ^ w`, the product is exactly that
rounded-up span. -/
theorem numElements_exact (w : Nat) (args : List ArraySize) (hw : 0 < w)
    (hal : PowTwoAligns w args) :
    sizeofStorage (args.map (·.T)) = alignofStorage (args.map (·.T))
    ∧ (∀ init ∈ args, init.T.align ≤ alignofStorage (args.map (·.T)))
    ∧ paddedNumBytes w args % sizeofStorage (args.map (·.T)) = 0
    ∧ numElements w args * sizeofStorage (args.map (·.T)) = paddedNumBytes w args
    ∧ (packedSpan args 0 + padTo (packedSpan args 0) (alignofStorage (args.map (·.T))) < 2 ^ w →
        numElements w args * sizeofStorage (args.map (·.T))
          = packedSpan args 0 + padTo (packedSpan args 0) (alignofStorage (args.map (·.T)))) := by
  obtain ⟨K, hK, hA, hall⟩ := alignofStorage_pow w args hw hal
  have hnb : addRequiredBytesAll w args 0 < 2 ^ w :=
    addRequiredBytesAll_lt w args 0 (Nat.two_pow_pos w)
  have hpad : paddedNumBytes w args
      = wrap w (addRequiredBytesAll w args 0 + padTo (addRequiredBytesAll w args 0) (2 ^ K)) := by
    simp only [paddedNumBytes, hA]
    rw [findDistance_eq_padTo w K _ hK hnb]
  have hmod : paddedNumBytes w args % 2 ^ K = 0 := by
    rw [hpad, wrap_mod_two_pow w K _ (Nat.le_of_lt hK)]
    exact padTo_add_mod _ _ (Nat.two_pow_pos K)
  have hexact : numElements w args * sizeofStorage (args.map (·.T)) = paddedNumBytes w args := by
    simp only [numElements, sizeofStorage, hA]
    exact Nat.div_mul_cancel (Nat.dvd_of_mod_eq_zero hmod)
  refine ⟨rfl, ?_, by simpa [sizeofStorage, hA] using hmod, hexact, ?_⟩
  · intro init hin
    obtain ⟨k, hk, ha⟩ := hall init hin
    rw [hA, ha]
    exact Nat.pow_le_pow_right (by decide) hk
  · intro hno
    rw [hexact, hpad]
    rw [hA] at hno
    have hplan : addRequiredBytesAll w args 0 = packedSpan args 0 :=
      addRequiredBytesAll_of_lt w args 0 hal (by omega)
    rw [hplan, hA, wrap_of_lt w _ hno]

/-! ## Consecutive views -/

theorem setRange_of_lt (w : Nat) (init : ArraySize) (mem k : Nat) (hk : k < w)
    (ha : init.T.align = 2 ^ k)
    (hno : mem + padTo mem init.T.align + init.m_count * init.T.size < 2 ^ w) :
    setRange w init mem
      = (⟨init.T, mem + padTo mem init.T.align,
          mem + padTo mem init.T.align + init.m_count * init.T.size⟩,
         mem + padTo mem init.T.align + init.m_count * init.T.size) := by
  simp only [setRange, ArraySize.numBytes]
  rw [ha] at hno ⊢
  rw [findDistance_eq_padTo w k mem hk (by omega), wrap_of_lt w (init.m_count * init.T.size)
    (by omega), wrap_of_lt w (mem + padTo mem (2 ^ k)) (by omega), wrap_of_lt w _ hno]

theorem setRangeAll_consecutive (w : Nat) (args : List ArraySize) (mem : Nat)
    (hal : PowTwoAligns w args) (hno : packedSpan args mem < 2 ^ w) (i : Nat)
    (hi : i + 1 < args.length) (hj : i + 1 < (setRangeAll w args mem).length) :
    (setRangeAll w args mem)[i + 1].m_begin
      = (setRangeAll w args mem)[i].m_end
        + padTo (setRangeAll w args mem)[i].m_end args[i + 1].T.align := by
  induction args generalizing mem i with
  | nil => simp at hi
  | cons a rest ih =>
    obtain ⟨k, hk, ha⟩ := hal a (List.mem_cons_self _ _)
    have hrest : PowTwoAligns w rest := fun x hx => hal x (List.mem_cons_of_mem _ hx)
    simp only [packedSpan] at hno
    have hge := packedSpan_ge rest (mem + padTo mem a.T.align + a.m_count * a.T.size)
    have hset := setRange_of_lt w a mem k hk ha (by omega)
    cases i with
    | zero =>
      cases rest with
      | nil => simp at hi
      | cons b rest2 =>
        obtain ⟨kb, hkb, hb⟩ := hrest b (List.mem_cons_self _ _)
        simp only [packedSpan] at hno
        have hge2 := packedSpan_ge rest2
          (mem + padTo mem a.T.align + a.m_count * a.T.size
            + padTo (mem + padTo mem a.T.align + a.m_count * a.T.size) b.T.align
            + b.m_count * b.T.size)
        have hset2 := setRange_of_lt w b
          (mem + padTo mem a.T.align + a.m_count * a.T.size) kb hkb hb (by omega)
        simp [setRangeAll, hset, hset2]
    | succ j =>
      simp only [setRangeAll, List.getElem_cons_succ, hset]
      exact ih _ hrest hno j (by simpa using hi) _

/-- C6: non-overlap and minimal padding.  For power-of-two element alignments, when the end
address of the packed sequences, computed from the region address without wraparound, is below
`2 ^ w`, every view after the first begins at or after the end of the view before it, at a
multiple of its element alignment, and the gap between the two is the smallest number of bytes
that reaches such a multiple; in particular the gap is below the alignment. -/
theorem make_contiguous_layout_minimal_padding (w : Nat) (allocate : Nat → Except Nat Nat)
    (args : List ArraySize) (amem : Nat) (hal : PowTwoAligns w args)
    (hmem : allocate (numElements w args) = .ok amem) (hno : packedSpan args amem < 2 ^ w) :
    ∃ layout, make_contiguous_layout w allocate args
        = ([Event.allocate (numElements w args)], .ok layout)
      ∧ layout.length = args.length
      ∧ ∀ (i : Nat) (hi : i + 1 < args.length) (hj : i + 1 < layout.length),
          layout[i].m_end ≤ layout[i + 1].m_begin
          ∧ layout[i + 1].m_begin % args[i + 1].T.align = 0
          ∧ (∀ d, (layout[i].m_end + d) % args[i + 1].T.align = 0 →
              layout[i + 1].m_begin - layout[i].m_end ≤ d)
          ∧ layout[i + 1].m_begin - layout[i].m_end < args[i + 1].T.align := by
  refine ⟨setRangeAll w args amem, ?_, setRangeAll_length _ _ _, ?_⟩
  · simp [make_contiguous_layout, hmem]
  · intro i hi hj
    have hc := setRangeAll_consecutive w args amem hal hno i hi hj
    obtain ⟨k, hk, ha⟩ := hal args[i + 1] (List.getElem_mem _)
    have hpos : 0 < args[i + 1].T.align := by rw [ha]; exact Nat.two_pow_pos k
    refine ⟨by omega, ?_, ?_, ?_⟩
    · rw [hc]; exact padTo_add_mod _ _ hpos
    · intro d hd
      have := padTo_le_of_mod _ _ d hd
      omega
    · have := padTo_lt (setRangeAll w args amem)[i].m_end _ hpos
      omega

/-! ## The region bounds recomputed at teardown -/

theorem padTo_congr (x y a : Nat) (h : x % a = y % a) : padTo x a = padTo y a := by
  unfold padTo; rw [h]

theorem padTo_of_mod_eq_zero (x a : Nat) (h : x % a = 0) : padTo x a = 0 := by
  unfold padTo; rw [h, Nat.sub_zero, Nat.mod_self]

theorem add_mod_of_mod_eq_zero (base pos a : Nat) (h : base % a = 0) :
    (base + pos) % a = pos % a := by
  rw [Nat.add_mod, h, Nat.zero_add, Nat.mod_mod]

theorem mod_pow_of_le (base k K : Nat) (hk : k ≤ K) (h : base % 2 ^ K = 0) :
    base % 2 ^ k = 0 :=
  Nat.mod_eq_zero_of_dvd (dvd_trans (Nat.pow_dvd_pow 2 hk) (Nat.dvd_of_mod_eq_zero h))

theorem add_sub_mod_cancel (M b n : Nat) (hb : b < M) :
    ((b + n) % M + (M - b)) % M = n % M := by
  rw [Nat.mod_add_mod, show b + n + (M - b) = n + M by omega, Nat.add_mod_right]

theorem setRange_snd_shift (w K base : Nat) (hK : K < w) (hbase : base % 2 ^ K = 0)
    (init : ArraySize) (k : Nat) (hk : k ≤ K) (ha : init.T.align = 2 ^ k) (pos : Nat)
    (hpos : pos < 2 ^ w) :
    (setRange w init (wrap w (base + pos))).2 = wrap w (base + addRequiredBytes w init pos) := by
  have hkw : k < w := lt_of_le_of_lt hk hK
  simp only [setRange, addRequiredBytes, ha]
  rw [findDistance_eq_padTo w k _ hkw (wrap_lt _ _), findDistance_eq_padTo w k pos hkw hpos]
  have hp : padTo (wrap w (base + pos)) (2 ^ k) = padTo pos (2 ^ k) := by
    apply padTo_congr
    rw [wrap_mod_two_pow w k _ (Nat.le_of_lt hkw)]
    exact add_mod_of_mod_eq_zero _ _ _ (mod_pow_of_le base k K hk hbase)
  rw [hp]
  simp only [wrap, Nat.mod_add_mod, Nat.add_mod_mod]
  congr 1
  omega

theorem setRangeAll_last_end (w K base : Nat) (hK : K < w) (hbase : base % 2 ^ K = 0)
    (args : List ArraySize) (hne : args ≠ [])
    (hall : ∀ init ∈ args, ∃ k, k ≤ K ∧ init.T.align = 2 ^ k) (pos : Nat)
    (hpos : pos < 2 ^ w) (d : span) :
    ((setRangeAll w args (wrap w (base + pos))).getLastD d).m_end
      = wrap w (base + addRequiredBytesAll w args pos) := by
  induction args generalizing pos d with
  | nil => exact absurd rfl hne
  | cons a rest ih =>
    obtain ⟨k, hk, ha⟩ := hall a (List.mem_cons_self _ _)
    have hsnd := setRange_snd_shift w K base hK hbase a k hk ha pos hpos
    simp only [setRangeAll, List.getLastD_cons, addRequiredBytesAll]
    cases rest with
    | nil =>
      simp only [setRangeAll, List.getLastD_nil, addRequiredBytesAll]
      rw [← hsnd]
      rfl
    | cons b rest2 =>
      rw [hsnd]
      exact ih (by simp) (fun x hx => hall x (List.mem_cons_of_mem _ hx)) _
        (addRequiredBytes_lt _ _ _) _

theorem setRangeAll_head_begin (w K base : Nat) (hK : K < w) (hbase : base % 2 ^ K = 0)
    (hlt : base < 2 ^ w) (args : List ArraySize) (hne : args ≠ [])
    (hall : ∀ init ∈ args, ∃ k, k ≤ K ∧ init.T.align = 2 ^ k) (d : span) :
    ((setRangeAll w args base).headD d).m_begin = base := by
  cases args with
  | nil => exact absurd rfl hne
  | cons a rest =>
    obtain ⟨k, hk, ha⟩ := hall a (List.mem_cons_self _ _)
    simp only [setRangeAll, List.headD_cons, setRange, ha]
    rw [findDistance_eq_padTo w k base (lt_of_le_of_lt hk hK) hlt,
      padTo_of_mod_eq_zero _ _ (mod_pow_of_le base k K hk hbase), Nat.add_zero,
      wrap_of_lt w base hlt]

theorem get_adjacent_address_of_aligned (w K base : Nat) (hK : K < w)
    (hbase : base % 2 ^ K = 0) (hlt : base < 2 ^ w) :
    get_adjacent_address w (2 ^ K) base = base := by
  simp only [get_adjacent_address]
  rw [findDistance_eq_padTo w K base hK hlt, padTo_of_mod_eq_zero _ _ hbase, Nat.add_zero,
    wrap_of_lt w base hlt]

/-- C1: round trip of the region bounds.  For every non-empty list of sequences with
power-of-two element alignments and every region address `amem` below `2 ^ w` that is a
multiple of the storage-unit alignment, `make_contiguous_layout` makes the single call
`allocate(numElements)`, and `destroy_contiguous_objects` run on the layout it returns ends with
the call `deallocate(amem, numElements)`: the pointer and the unit count recomputed from the
first view's begin and the last view's end are those of the allocation.  All arithmetic is
modulo `2 ^ w`, so the equality needs no assumption on the element sizes or counts. -/
theorem destroy_contiguous_objects_round_trip (w : Nat) (allocate : Nat → Except Nat Nat)
    (args : List ArraySize) (amem : Nat) (hne : args ≠ []) (hal : PowTwoAligns w args)
    (hmem : allocate (numElements w args) = .ok amem) (hlt : amem < 2 ^ w)
    (hbase : amem % alignofStorage (args.map (·.T)) = 0) :
    ∃ layout, make_contiguous_layout w allocate args
        = ([Event.allocate (numElements w args)], .ok layout)
      ∧ destroy_contiguous_objects w layout
        = reverseDestroyAll w 0 layout ++ [Event.deallocate amem (numElements w args)] := by
  refine ⟨setRangeAll w args amem, ?_, ?_⟩
  · simp [make_contiguous_layout, hmem]
  have hw : 0 < w := by
    cases args with
    | nil => exact absurd rfl hne
    | cons a rest =>
      obtain ⟨k, hk, _⟩ := hal a (List.mem_cons_self _ _)
      omega
  obtain ⟨K, hK, hA, hall⟩ := alignofStorage_pow w args hw hal
  rw [hA] at hbase
  have hnb : addRequiredBytesAll w args 0 < 2 ^ w :=
    addRequiredBytesAll_lt w args 0 (Nat.two_pow_pos w)
  have hhead := setRangeAll_head_begin w K amem hK hbase hlt args hne hall default
  have hlast := setRangeAll_last_end w K amem hK hbase args hne hall 0 (Nat.two_pow_pos w) default
  rw [Nat.add_zero, wrap_of_lt w amem hlt] at hlast
  simp only [destroy_contiguous_objects, setRangeAll_map_T, hA, hhead, hlast, sizeofStorage,
    numElements, paddedNumBytes]
  rw [get_adjacent_address_of_aligned w K amem hK hbase hlt]
  simp only [get_adjacent_address]
  rw [findDistance_eq_padTo w K _ hK (wrap_lt _ _), findDistance_eq_padTo w K _ hK hnb]
  have hp : padTo (wrap w (amem + addRequiredBytesAll w args 0)) (2 ^ K)
      = padTo (addRequiredBytesAll w args 0) (2 ^ K) := by
    apply padTo_congr
    rw [wrap_mod_two_pow w K _ (Nat.le_of_lt hK)]
    exact add_mod_of_mod_eq_zero _ _ _ hbase
  rw [hp]
  have hbytes : wrap w (wrap w (wrap w (amem + addRequiredBytesAll w args 0)
        + padTo (addRequiredBytesAll w args 0) (2 ^ K)) + (2 ^ w - amem))
      = wrap w (addRequiredBytesAll w args 0 + padTo (addRequiredBytesAll w args 0) (2 ^ K)) := by
    simp only [wrap, Nat.mod_add_mod]
    rw [Nat.add_assoc amem, ← Nat.mod_add_mod, add_sub_mod_cancel _ _ _ hlt]
  rw [hbytes]

/-! ## Traces of the construction loop -/

theorem initRanges_eq_initRangesFrom (w : Nat) (construct : Nat → Nat → List Nat → Option Nat)
    (t : List span) (acs : List InitializerConfiguration) (h : acs.length ≤ t.length)
    (hext : ∀ sp ∈ t, sp.extent w = sp.size w) :
    initRanges w construct t acs
      = initRangesFrom construct (t.length - acs.length)
          (((t.drop (t.length - acs.length)).map (span.size w)).zip acs) := by
  induction acs with
  | nil => simp [initRanges, initRangesFrom]
  | cons ac acs ih =>
    have hlen : acs.length + 1 ≤ t.length := by simpa using h
    have hp : t.length - (acs.length + 1) < t.length := by omega
    have hsucc : t.length - (acs.length + 1) + 1 = t.length - acs.length := by omega
    have ih2 := ih (by omega)
    rw [← hsucc] at ih2
    rw [List.length_cons, List.drop_eq_getElem_cons hp]
    simp only [List.map_cons, List.zip_cons_cons, initRangesFrom, initRanges]
    rw [Nat.sub_sub, List.getD_eq_getElem _ _ hp, ih2, hext _ (List.getElem_mem hp)]
    rfl

theorem constructs_append (a b : List Event) : constructs (a ++ b) = constructs a ++ constructs b :=
  List.filterMap_append _ _ _

theorem destroys_append (a b : List Event) : destroys (a ++ b) = destroys a ++ destroys b :=
  List.filterMap_append _ _ _

theorem constructs_map_construct (seq : Nat) (xs : List Nat) (l : List Nat) :
    constructs (l.map (fun i => Event.construct seq i xs)) = l.map (fun i => (seq, i)) := by
  induction l with
  | nil => rfl
  | cons a l ih => simp [constructs] at ih ⊢; try exact ih

theorem destroys_map_construct (seq : Nat) (xs : List Nat) (l : List Nat) :
    destroys (l.map (fun i => Event.construct seq i xs)) = [] := by
  induction l with
  | nil => rfl
  | cons a l ih => simp [destroys] at ih ⊢; try exact ih

theorem constructs_map_destroy (seq : Nat) (l : List Nat) :
    constructs (l.map (Event.destroy seq)) = [] := by
  induction l with
  | nil => rfl
  | cons a l ih => simp [constructs] at ih ⊢; try exact ih

theorem destroys_map_destroy (seq : Nat) (l : List Nat) :
    destroys (l.map (Event.destroy seq)) = l.map (fun i => (seq, i)) := by
  induction l with
  | nil => rfl
  | cons a l ih => simp [destroys] at ih ⊢; try exact ih

theorem constructLoop_spec (construct : Nat → Nat → List Nat → Option Nat) (seq : Nat)
    (xs : List Nat) (n c : Nat) :
    ∃ c', c ≤ c' ∧ c' ≤ c + n
      ∧ constructLoop construct seq xs n c
          = ((List.range' c (c' - c)).map (fun i => Event.construct seq i xs), c',
             (constructLoop construct seq xs n c).2.2)
      ∧ (∀ i, c ≤ i → i < c' → construct seq i xs = none)
      ∧ ((constructLoop construct seq xs n c).2.2 = none → c' = c + n)
      ∧ (∀ e, (constructLoop construct seq xs n c).2.2 = some e →
          c' < c + n ∧ construct seq c' xs = some e) := by
  induction n generalizing c with
  | zero => exact ⟨c, le_refl _, le_refl _, by simp [constructLoop], by intro i h1 h2; omega,
      fun _ => rfl, by simp [constructLoop]⟩
  | succ n ih =>
    cases hc : construct seq c xs with
    | some e =>
      refine ⟨c, le_refl _, by omega, by simp [constructLoop, hc], by intro i h1 h2; omega,
        by simp [constructLoop, hc], ?_⟩
      intro e2 he2
      simp [constructLoop, hc] at he2
      exact ⟨by omega, by rw [← he2]; exact hc⟩
    | none =>
      obtain ⟨c', h1, h2, heq, hnone, hok, hfail⟩ := ih (c + 1)
      refine ⟨c', by omega, by omega, ?_, ?_, ?_, ?_⟩
      · simp only [constructLoop, hc]
        rw [heq]
        have : c' - c = (c' - (c + 1)) + 1 := by omega
        rw [this, List.range'_succ]
        simp
      · intro i hi1 hi2
        rcases Nat.eq_or_lt_of_le hi1 with rfl | hlt
        · exact hc
        · exact hnone i hlt hi2
      · intro h
        simp only [constructLoop, hc] at h
        have := hok h
        omega
      · intro e he
        simp only [constructLoop, hc] at he
        have := hfail e he
        exact ⟨by omega, this.2⟩

/-! ## Rollback -/

theorem uninitialized_allocator_construct_n_spec
    (construct : Nat → Nat → List Nat → Option Nat) (seq n : Nat) (xs : List Nat) :
    ∃ c', c' ≤ n ∧ (∀ i, i < c' → construct seq i xs = none)
      ∧ ((uninitialized_allocator_construct_n construct seq n xs).2 = none →
          c' = n ∧ (uninitialized_allocator_construct_n construct seq n xs).1
            = (List.range n).map (fun i => Event.construct seq i xs))
      ∧ (∀ e, (uninitialized_allocator_construct_n construct seq n xs).2 = some e →
          c' < n ∧ construct seq c' xs = some e
          ∧ (uninitialized_allocator_construct_n construct seq n xs).1
            = (List.range c').map (fun i => Event.construct seq i xs)
              ++ (List.range c').reverse.map (Event.destroy seq)) := by
  obtain ⟨c', _, h2, heq, hnone, hok, hfail⟩ := constructLoop_spec construct seq xs n 0
  refine ⟨c', by omega, fun i hi => hnone i (Nat.zero_le _) hi, ?_, ?_⟩
  · intro h
    cases hr : (constructLoop construct seq xs n 0).2.2 with
    | some e => simp [uninitialized_allocator_construct_n, hr] at h
    | none =>
      have hc := hok hr
      refine ⟨by omega, ?_⟩
      simp only [uninitialized_allocator_construct_n, hr]
      rw [heq, hc]
      simp [List.range_eq_range']
  · intro e h
    cases hr : (constructLoop construct seq xs n 0).2.2 with
    | none => simp [uninitialized_allocator_construct_n, hr] at h
    | some e2 =>
      have he : e2 = e := by simpa [uninitialized_allocator_construct_n, hr] using h
      subst he
      obtain ⟨hlt, hc⟩ := hfail e2 hr
      refine ⟨by omega, hc, ?_⟩
      simp only [uninitialized_allocator_construct_n, hr, allocator_destroy_multidimensional]
      rw [heq]
      simp [List.range_eq_range']

theorem initRange_of_hasBranch (construct : Nat → Nat → List Nat → Option Nat) (tupPos n : Nat)
    (ac : InitializerConfiguration) (h : ac.command.hasBranch = true) :
    ∃ xs, initRange construct tupPos n ac
      = uninitialized_allocator_construct_n construct tupPos n xs := by
  unfold initRange
  cases hc : ac.command <;> simp only [hc, Command.hasBranch] at h ⊢
  · exact ⟨[], rfl⟩
  · exact ⟨_, rfl⟩
  · exact ⟨[], rfl⟩
  · exact ⟨_, rfl⟩
  all_goals exact absurd h (by decide)

theorem initRangesRollback_eq (c : Command) (tupPos n : Nat) :
    initRangesRollback c tupPos n = (List.range n).reverse.map (Event.destroy tupPos) := by
  unfold initRangesRollback allocator_destroy_multidimensional reverse_destroy
  split <;> rfl

theorem elementsOf_reverse (seq n : Nat) :
    (List.range n).reverse.map (fun i => (seq, i)) = (elementsOf seq n).reverse := by
  simp [elementsOf, List.map_reverse]

theorem initRangesFrom_rollback (construct : Nat → Nat → List Nat → Option Nat)
    (l : List (Nat × InitializerConfiguration)) (p : Nat)
    (hl : ∀ x ∈ l, x.2.command.hasBranch = true) :
    ((initRangesFrom construct p l).2 = none →
        destroys (initRangesFrom construct p l).1 = []
        ∧ constructs (initRangesFrom construct p l).1 = allElementsFrom p (l.map (·.1)))
    ∧ (∀ e, (initRangesFrom construct p l).2 = some e →
        destroys (initRangesFrom construct p l).1
          = (constructs (initRangesFrom construct p l).1).reverse) := by
  induction l generalizing p with
  | nil => simp [initRangesFrom, destroys, constructs, allElementsFrom]
  | cons x rest ih =>
    obtain ⟨n, ac⟩ := x
    obtain ⟨xs, hxs⟩ := initRange_of_hasBranch construct p n ac (hl (n, ac) (List.mem_cons_self _ _))
    obtain ⟨c', _, _, hok, hfail⟩ := uninitialized_allocator_construct_n_spec construct p n xs
    obtain ⟨ihok, ihfail⟩ := ih (p + 1) (fun y hy => hl y (List.mem_cons_of_mem _ hy))
    simp only [initRangesFrom, hxs]
    cases h0 : (uninitialized_allocator_construct_n construct p n xs).2 with
    | some e =>
      obtain ⟨_, _, htr⟩ := hfail e h0
      simp only [htr]
      refine ⟨by simp, ?_⟩
      intro e2 _
      rw [destroys_append, constructs_append, destroys_map_construct, constructs_map_destroy,
        constructs_map_construct, destroys_map_destroy]
      simp [List.map_reverse]
    | none =>
      obtain ⟨_, htr⟩ := hok h0
      simp only [htr]
      cases h1 : (initRangesFrom construct (p + 1) rest).2 with
      | some e =>
        have hd := ihfail e h1
        refine ⟨by simp, ?_⟩
        intro e2 _
        simp only [destroys_append, constructs_append, destroys_map_construct,
          constructs_map_construct, initRangesRollback_eq, destroys_map_destroy,
          constructs_map_destroy, hd]
        simp [List.map_reverse]
      | none =>
        obtain ⟨hd, hcs⟩ := ihok h1
        refine ⟨?_, by simp⟩
        intro _
        simp only [destroys_append, constructs_append, destroys_map_construct,
          constructs_map_construct, hd, hcs, List.map_cons, allElementsFrom, elementsOf]
        simp

theorem mem_elementsOf (seq n s i : Nat) : (s, i) ∈ elementsOf seq n ↔ s = seq ∧ i < n := by
  simp only [elementsOf, List.mem_map, List.mem_range, Prod.mk.injEq]
  constructor
  · rintro ⟨a, ha, rfl, rfl⟩; exact ⟨rfl, ha⟩
  · rintro ⟨rfl, hi⟩; exact ⟨i, hi, rfl, rfl⟩

theorem mem_allElementsFrom (p : Nat) (cs : List Nat) (s i : Nat)
    (h : (s, i) ∈ allElementsFrom p cs) : p ≤ s ∧ s < p + cs.length := by
  induction cs generalizing p with
  | nil => simp [allElementsFrom] at h
  | cons n rest ih =>
    simp only [allElementsFrom, List.mem_append] at h
    rcases h with h | h
    · have := (mem_elementsOf p n s i).1 h
      simp only [List.length_cons]
      omega
    · have := ih (p + 1) h
      simp only [List.length_cons]
      omega

theorem mem_constructs_of_mem (tr : List Event) (s i : Nat) (xs : List Nat)
    (h : Event.construct s i xs ∈ tr) : (s, i) ∈ constructs tr :=
  List.mem_filterMap.2 ⟨_, h, rfl⟩

theorem mem_destroys_of_mem (tr : List Event) (s i : Nat)
    (h : Event.destroy s i ∈ tr) : (s, i) ∈ destroys tr :=
  List.mem_filterMap.2 ⟨_, h, rfl⟩

theorem initRangesFrom_fail_at (construct : Nat → Nat → List Nat → Option Nat)
    (l : List (Nat × InitializerConfiguration)) (p k m e : Nat)
    (hl : ∀ x ∈ l, x.2.command.hasBranch = true) (hpk : p ≤ k) (hk : k - p < l.length)
    (hm : m < l[k - p].1)
    (hfail : ∀ xs, construct k m xs = some e)
    (hbefore : ∀ s i xs, s < k ∨ (s = k ∧ i < m) → construct s i xs = none) :
    (initRangesFrom construct p l).2 = some e
    ∧ constructs (initRangesFrom construct p l).1
        = allElementsFrom p ((l.take (k - p)).map (·.1)) ++ elementsOf k m := by
  induction l generalizing p with
  | nil => simp at hk
  | cons x rest ih =>
    obtain ⟨n, ac⟩ := x
    obtain ⟨xs, hxs⟩ := initRange_of_hasBranch construct p n ac (hl (n, ac) (List.mem_cons_self _ _))
    obtain ⟨c', hc'n, hnone, hok, hfl⟩ := uninitialized_allocator_construct_n_spec construct p n xs
    simp only [initRangesFrom, hxs]
    rcases Nat.eq_or_lt_of_le hpk with hpeq | hplt
    · subst hpeq
      simp only [Nat.sub_self, List.getElem_cons_zero] at hm
      cases h0 : (uninitialized_allocator_construct_n construct p n xs).2 with
      | none =>
        obtain ⟨hc, _⟩ := hok h0
        have := hnone m (by omega)
        rw [hfail xs] at this
        exact absurd this (by simp)
      | some e2 =>
        obtain ⟨hlt, hce, htr⟩ := hfl e2 h0
        have hcm : c' = m := by
          rcases Nat.lt_trichotomy c' m with h | h | h
          · have := hbefore p c' xs (Or.inr ⟨rfl, h⟩)
            rw [hce] at this
            exact absurd this (by simp)
          · exact h
          · have := hnone m h
            rw [hfail xs] at this
            exact absurd this (by simp)
        subst hcm
        rw [hfail xs] at hce
        have he : e = e2 := by simpa using hce
        subst he
        simp only [htr, Nat.sub_self, List.take_zero, List.map_nil, allElementsFrom,
          List.nil_append, constructs_append, constructs_map_construct, constructs_map_destroy,
          List.append_nil, elementsOf, true_and]
    · cases h0 : (uninitialized_allocator_construct_n construct p n xs).2 with
      | some e2 =>
        obtain ⟨hlt, hce, _⟩ := hfl e2 h0
        have := hbefore p c' xs (Or.inl hplt)
        rw [hce] at this
        exact absurd this (by simp)
      | none =>
        obtain ⟨_, htr⟩ := hok h0
        have hkp : k - p = (k - (p + 1)) + 1 := by omega
        have hk2 : k - (p + 1) < rest.length := by
          simp only [List.length_cons] at hk; omega
        have hm2 : m < rest[k - (p + 1)].1 := by
          simp only [hkp, List.getElem_cons_succ] at hm
          exact hm
        obtain ⟨hres, hcs⟩ := ih (p + 1) (fun y hy => hl y (List.mem_cons_of_mem _ hy))
          (by omega) hk2 hm2
        simp only [hres, htr, true_and]
        rw [hkp]
        simp only [constructs_append, constructs_map_construct, initRangesRollback_eq,
          constructs_map_destroy, hcs, List.take_succ_cons, List.map_cons, allElementsFrom,
          elementsOf, List.append_nil, List.append_assoc]

/-! ## The phased construction on the views of a layout -/

theorem setRangeAll_map_size (w : Nat) (args : List ArraySize) (mem : Nat)
    (hsz : ∀ init ∈ args, 0 < init.T.size ∧ init.m_count * init.T.size < 2 ^ (w - 1)) :
    (setRangeAll w args mem).map (span.size w) = args.map (·.m_count) := by
  induction args generalizing mem with
  | nil => rfl
  | cons init rest ih =>
    obtain ⟨h1, h2⟩ := hsz init (List.mem_cons_self _ _)
    simp only [setRangeAll, List.map_cons, setRange_size w init mem h1 h2]
    rw [ih _ (fun x hx => hsz x (List.mem_cons_of_mem _ hx))]

theorem setRangeAll_extent_eq_size (w : Nat) (args : List ArraySize) (mem : Nat)
    (hsz : ∀ init ∈ args, 0 < init.T.size ∧ init.m_count * init.T.size < 2 ^ (w - 1)) :
    ∀ sp ∈ setRangeAll w args mem, sp.extent w = sp.size w := by
  induction args generalizing mem with
  | nil => intro sp hsp; simp [setRangeAll] at hsp
  | cons init rest ih =>
    obtain ⟨h1, h2⟩ := hsz init (List.mem_cons_self _ _)
    have hle := two_pow_pred_le w
    intro sp hsp
    simp only [setRangeAll, List.mem_cons] at hsp
    rcases hsp with rfl | hsp
    · rw [setRange_size w init mem h1 h2, setRange_extent w init mem h1 (by omega)]
    · exact ih _ (fun x hx => hsz x (List.mem_cons_of_mem _ hx)) sp hsp

theorem initRanges_on_layout (w : Nat) (construct : Nat → Nat → List Nat → Option Nat)
    (args : List (ElemType × Initializer)) (amem : Nat)
    (hsz : ∀ a ∈ args, 0 < a.1.size ∧ get_size a.2 * a.1.size < 2 ^ (w - 1)) :
    initRanges w construct (setRangeAll w (args.map (fun a => ⟨a.1, get_size a.2⟩)) amem)
        (args.map (fun a => convert_arg a.2))
      = initRangesFrom construct 0 (args.map (fun a => (get_size a.2, convert_arg a.2))) := by
  have hsz2 : ∀ init ∈ args.map (fun a => (⟨a.1, get_size a.2⟩ : ArraySize)),
      0 < init.T.size ∧ init.m_count * init.T.size < 2 ^ (w - 1) := by
    intro init hin
    obtain ⟨a, ha, rfl⟩ := List.mem_map.1 hin
    exact hsz a ha
  rw [initRanges_eq_initRangesFrom _ _ _ _ (by simp [setRangeAll_length])
    (setRangeAll_extent_eq_size w _ amem hsz2)]
  have h0 : (setRangeAll w (args.map (fun a => (⟨a.1, get_size a.2⟩ : ArraySize))) amem).length
      - (args.map (fun a => convert_arg a.2)).length = 0 := by simp [setRangeAll_length]
  rw [h0, List.drop_zero, setRangeAll_map_size w _ amem hsz2, List.map_map, List.zip_map']
  rfl

theorem constructs_operator_delete (p : Nat) : constructs (operator_delete p) = [] := by
  unfold operator_delete; split <;> rfl

theorem destroys_operator_delete (p : Nat) : destroys (operator_delete p) = [] := by
  unfold operator_delete; split <;> rfl

/-- C4: cascading rollback order.  Take sequences that all use the fixed-argument strategy
(a bare count included), with positive element sizes and `count * sizeof(T)` below
`2 ^ (w - 1)` (so that the signed pointer difference behind `size()` is the count), a
successful allocation, and an element constructor that throws `e` at element `m` of sequence
`k` and at no element before it.  Then `make_contiguous_objects` fails with `e`; the completed
constructions are all elements of sequences `0, ..., k - 1` in order followed by elements
`0, ..., m - 1` of sequence `k`; the destructor calls are exactly these in reverse order; and
no element of a sequence after `k` is constructed or destroyed. -/
theorem make_contiguous_objects_rollback_reverse (w : Nat) (allocate : Nat → Except Nat Nat)
    (construct : Nat → Nat → List Nat → Option Nat) (args : List (ElemType × Initializer))
    (amem k m e : Nat)
    (hctor : ∀ a ∈ args, (convert_arg a.2).command = .ctor_t)
    (hsz : ∀ a ∈ args, 0 < a.1.size ∧ get_size a.2 * a.1.size < 2 ^ (w - 1))
    (hmem : allocate (numElements w (args.map (fun a => ⟨a.1, get_size a.2⟩))) = .ok amem)
    (hk : k < args.length) (hm : m < get_size args[k].2)
    (hfail : ∀ xs, construct k m xs = some e)
    (hbefore : ∀ s i xs, s < k ∨ (s = k ∧ i < m) → construct s i xs = none) :
    (make_contiguous_objects w allocate construct args).2 = .error e
    ∧ constructs (make_contiguous_objects w allocate construct args).1
        = allElementsFrom 0 ((args.take k).map (fun a => get_size a.2)) ++ elementsOf k m
    ∧ destroys (make_contiguous_objects w allocate construct args).1
        = (constructs (make_contiguous_objects w allocate construct args).1).reverse
    ∧ ∀ s i xs, k < s →
        Event.construct s i xs ∉ (make_contiguous_objects w allocate construct args).1
        ∧ Event.destroy s i ∉ (make_contiguous_objects w allocate construct args).1 := by
  have hl : ∀ x ∈ args.map (fun a => (get_size a.2, convert_arg a.2)),
      x.2.command.hasBranch = true := by
    intro x hx
    obtain ⟨a, ha, rfl⟩ := List.mem_map.1 hx
    simp only [hctor a ha]
    rfl
  obtain ⟨hres, hcs⟩ := initRangesFrom_fail_at construct
    (args.map (fun a => (get_size a.2, convert_arg a.2))) 0 k m e hl (Nat.zero_le _)
    (by simpa using hk) (by simpa using hm) hfail hbefore
  have hds := (initRangesFrom_rollback construct
    (args.map (fun a => (get_size a.2, convert_arg a.2))) 0 hl).2 e hres
  have hrun : make_contiguous_objects w allocate construct args
      = ([Event.allocate (numElements w (args.map (fun a => ⟨a.1, get_size a.2⟩)))]
          ++ (initRangesFrom construct 0
                (args.map (fun a => (get_size a.2, convert_arg a.2)))).1
          ++ operator_delete
              (((setRangeAll w (args.map (fun a => ⟨a.1, get_size a.2⟩)) amem).headD
                default).m_begin),
         .error e) := by
    simp only [make_contiguous_objects, make_contiguous_layout, hmem,
      initRanges_on_layout w construct args amem hsz, hres, MemGuard.destructor]
  have hc : constructs (make_contiguous_objects w allocate construct args).1
      = allElementsFrom 0 ((args.take k).map (fun a => get_size a.2)) ++ elementsOf k m := by
    rw [hrun]
    simp only [constructs_append, constructs_operator_delete, List.append_nil, hcs]
    simp [constructs, List.map_take, Function.comp_def]
  have hd : destroys (make_contiguous_objects w allocate construct args).1
      = (constructs (make_contiguous_objects w allocate construct args).1).reverse := by
    rw [hrun]
    simp only [constructs_append, constructs_operator_delete, destroys_append,
      destroys_operator_delete, List.append_nil, hds]
    simp [constructs, destroys]
  have hle : ∀ s i, (s, i) ∈ constructs (make_contiguous_objects w allocate construct args).1 →
      s ≤ k := by
    intro s i hmem
    rw [hc, List.mem_append] at hmem
    rcases hmem with h | h
    · have := mem_allElementsFrom _ _ _ _ h
      simp only [List.length_map, List.length_take] at this
      omega
    · have := (mem_elementsOf _ _ _ _).1 h
      omega
  refine ⟨by rw [hrun], hc, hd, ?_⟩
  intro s i xs hks
  constructor
  · intro hin
    have := hle s i (mem_constructs_of_mem _ _ _ _ hin)
    omega
  · intro hin
    have h2 := mem_destroys_of_mem _ _ _ hin
    rw [hd, List.mem_reverse] at h2
    have := hle s i h2
    omega

/-- Whenever every sequence uses a command that has a construction branch in `initRanges`, a
failing call of `make_contiguous_objects` destroys exactly the elements it constructed, in
reverse order of construction. -/
theorem make_contiguous_objects_rollback_of_hasBranch (w : Nat)
    (allocate : Nat → Except Nat Nat) (construct : Nat → Nat → List Nat → Option Nat)
    (args : List (ElemType × Initializer)) (e : Nat)
    (hb : ∀ a ∈ args, (convert_arg a.2).command.hasBranch = true)
    (hsz : ∀ a ∈ args, 0 < a.1.size ∧ get_size a.2 * a.1.size < 2 ^ (w - 1))
    (hres : (make_contiguous_objects w allocate construct args).2 = .error e) :
    destroys (make_contiguous_objects w allocate construct args).1
      = (constructs (make_contiguous_objects w allocate construct args).1).reverse := by
  have hl : ∀ x ∈ args.map (fun a => (get_size a.2, convert_arg a.2)),
      x.2.command.hasBranch = true := by
    intro x hx
    obtain ⟨a, ha, rfl⟩ := List.mem_map.1 hx
    exact hb a ha
  cases hal : allocate (numElements w (args.map (fun a => ⟨a.1, get_size a.2⟩))) with
  | error e2 =>
    simp only [make_contiguous_objects, make_contiguous_layout, hal]
    rfl
  | ok amem =>
    cases h1 : (initRangesFrom construct 0
        (args.map (fun a => (get_size a.2, convert_arg a.2)))).2 with
    | none =>
      simp [make_contiguous_objects, make_contiguous_layout, hal,
        initRanges_on_layout w construct args amem hsz, h1] at hres
    | some e2 =>
      have hds := (initRangesFrom_rollback construct
        (args.map (fun a => (get_size a.2, convert_arg a.2))) 0 hl).2 e2 h1
      simp only [make_contiguous_objects, make_contiguous_layout, hal,
        initRanges_on_layout w construct args amem hsz, h1, MemGuard.destructor,
        constructs_append, constructs_operator_delete, destroys_append,
        destroys_operator_delete, List.append_nil, hds]
      simp [constructs, destroys]

/-- Three sequences, the constructor of the third element of the second one throws. -/
theorem make_contiguous_objects_rollback_reverse_witness :
    (make_contiguous_objects 64 (fun _ => .ok 4096)
        (fun s i _ => if s = 1 ∧ i = 2 then some 7 else none)
        [(⟨4, 4⟩, .count 2), (⟨8, 8⟩, .config (arg_ctor 3 [5])), (⟨2, 2⟩, .count 4)]).2
      = .error 7
    ∧ constructs (make_contiguous_objects 64 (fun _ => .ok 4096)
        (fun s i _ => if s = 1 ∧ i = 2 then some 7 else none)
        [(⟨4, 4⟩, .count 2), (⟨8, 8⟩, .config (arg_ctor 3 [5])), (⟨2, 2⟩, .count 4)]).1
      = [(0, 0), (0, 1), (1, 0), (1, 1)]
    ∧ destroys (make_contiguous_objects 64 (fun _ => .ok 4096)
        (fun s i _ => if s = 1 ∧ i = 2 then some 7 else none)
        [(⟨4, 4⟩, .count 2), (⟨8, 8⟩, .config (arg_ctor 3 [5])), (⟨2, 2⟩, .count 4)]).1
      = [(1, 1), (1, 0), (0, 1), (0, 0)] := by
  have h := make_contiguous_objects_rollback_reverse 64 (fun _ => .ok 4096)
    (fun s i _ => if s = 1 ∧ i = 2 then some 7 else none)
    [(⟨4, 4⟩, .count 2), (⟨8, 8⟩, .config (arg_ctor 3 [5])), (⟨2, 2⟩, .count 4)]
    4096 1 2 7 (by decide) (by decide) rfl (by decide) (by decide) (by intro xs; rfl)
    (by
      intro s i xs h
      have : ¬ (s = 1 ∧ i = 2) := by omega
      simp [this])
  refine ⟨h.1, ?_, ?_⟩
  · rw [h.2.1]; decide
  · rw [h.2.2.1, h.2.1]; decide

/-! ## Calls on the memory source during construction -/

theorem uninitialized_allocator_construct_n_events
    (construct : Nat → Nat → List Nat → Option Nat) (seq n : Nat) (xs : List Nat) :
    ∀ ev ∈ (uninitialized_allocator_construct_n construct seq n xs).1,
      ev.isElementEvent = true := by
  obtain ⟨c', _, _, hok, hfail⟩ := uninitialized_allocator_construct_n_spec construct seq n xs
  intro ev hev
  cases h : (uninitialized_allocator_construct_n construct seq n xs).2 with
  | none =>
    rw [(hok h).2] at hev
    obtain ⟨i, _, rfl⟩ := List.mem_map.1 hev
    rfl
  | some e =>
    rw [(hfail e h).2.2, List.mem_append] at hev
    rcases hev with hev | hev
    · obtain ⟨i, _, rfl⟩ := List.mem_map.1 hev
      rfl
    · obtain ⟨i, _, rfl⟩ := List.mem_map.1 hev
      rfl

theorem initRange_events (construct : Nat → Nat → List Nat → Option Nat) (tupPos n : Nat)
    (ac : InitializerConfiguration) :
    ∀ ev ∈ (initRange construct tupPos n ac).1, ev.isElementEvent = true := by
  unfold initRange
  cases ac.command
  case default_ctor_t => exact uninitialized_allocator_construct_n_events _ _ _ _
  case ctor_t => exact uninitialized_allocator_construct_n_events _ _ _ _
  case value_ctor_t => exact uninitialized_allocator_construct_n_events _ _ _ _
  case fill_ctor_t => exact uninitialized_allocator_construct_n_events _ _ _ _
  all_goals (intro ev hev; simp at hev)

theorem initRanges_events (w : Nat) (construct : Nat → Nat → List Nat → Option Nat)
    (t : List span) (acs : List InitializerConfiguration) :
    ∀ ev ∈ (initRanges w construct t acs).1, ev.isElementEvent = true := by
  induction acs with
  | nil => intro ev hev; simp [initRanges] at hev
  | cons ac acs ih =>
    intro ev hev
    simp only [initRanges] at hev
    split at hev
    · exact initRange_events _ _ _ _ ev hev
    · split at hev
      · simp only [List.mem_append] at hev
        rcases hev with (hev | hev) | hev
        · exact initRange_events _ _ _ _ ev hev
        · exact ih ev hev
        · rw [initRangesRollback_eq] at hev
          obtain ⟨i, _, rfl⟩ := List.mem_map.1 hev
          rfl
      · simp only [List.mem_append] at hev
        rcases hev with hev | hev
        · exact initRange_events _ _ _ _ ev hev
        · exact ih ev hev

/-- No run of `make_contiguous_objects` calls `deallocate` on the memory source, whatever the
outcome of the allocation and of the element constructions. -/
theorem make_contiguous_objects_never_deallocates (w : Nat) (allocate : Nat → Except Nat Nat)
    (construct : Nat → Nat → List Nat → Option Nat) (args : List (ElemType × Initializer))
    (ptr n : Nat) :
    Event.deallocate ptr n ∉ (make_contiguous_objects w allocate construct args).1 := by
  intro hin
  have hop : ∀ p, Event.deallocate ptr n ∉ operator_delete p := by
    intro p hp
    unfold operator_delete at hp
    split at hp <;> simp at hp
  have hinit : ∀ t acs, Event.deallocate ptr n ∉ (initRanges w construct t acs).1 := by
    intro t acs hp
    have := initRanges_events w construct t acs _ hp
    simp [Event.isElementEvent] at this
  simp only [make_contiguous_objects, make_contiguous_layout] at hin
  split at hin
  · split at hin <;> simp_all
  · split at hin <;> split at hin <;>
      simp_all [MemGuard.destructor, MemGuard.release]

/-! ## Concrete runs -/

theorem powTwoAligns_pair (w j k : Nat) (hj : j < w) (hk : k < w) (a b : ArraySize)
    (ha : a.T.align = 2 ^ j) (hb : b.T.align = 2 ^ k) : PowTwoAligns w [a, b] := by
  intro init hin
  simp only [List.mem_cons, List.mem_singleton, List.not_mem_nil, or_false] at hin
  rcases hin with rfl | rfl
  · exact ⟨j, hj, ha⟩
  · exact ⟨k, hk, hb⟩

/-- The round trip for three 4-byte and two 8-byte elements in a region at 4096. -/
theorem destroy_contiguous_objects_round_trip_witness :
    ∃ layout, make_contiguous_layout 64 (fun _ => .ok 4096) [⟨⟨4, 4⟩, 3⟩, ⟨⟨8, 8⟩, 2⟩]
        = ([Event.allocate (numElements 64 [⟨⟨4, 4⟩, 3⟩, ⟨⟨8, 8⟩, 2⟩])], .ok layout)
      ∧ destroy_contiguous_objects 64 layout
        = reverseDestroyAll 64 0 layout
          ++ [Event.deallocate 4096 (numElements 64 [⟨⟨4, 4⟩, 3⟩, ⟨⟨8, 8⟩, 2⟩])] :=
  destroy_contiguous_objects_round_trip 64 (fun _ => .ok 4096) [⟨⟨4, 4⟩, 3⟩, ⟨⟨8, 8⟩, 2⟩] 4096
    (by decide) (powTwoAligns_pair 64 2 3 (by decide) (by decide) _ _ rfl rfl) rfl (by decide)
    (by decide)

/-- Two sequences of alignments 4 and 8 placed from the address 4100, which is not 8-aligned. -/
theorem make_contiguous_layout_begin_aligned_witness :
    ∃ layout, make_contiguous_layout 64 (fun _ => .ok 4100) [⟨⟨4, 4⟩, 3⟩, ⟨⟨8, 8⟩, 2⟩]
        = ([Event.allocate (numElements 64 [⟨⟨4, 4⟩, 3⟩, ⟨⟨8, 8⟩, 2⟩])], .ok layout)
      ∧ layout.length = [(⟨⟨4, 4⟩, 3⟩ : ArraySize), ⟨⟨8, 8⟩, 2⟩].length
      ∧ ∀ (i : Nat) (hi : i < [(⟨⟨4, 4⟩, 3⟩ : ArraySize), ⟨⟨8, 8⟩, 2⟩].length)
          (hj : i < layout.length),
          layout[i].m_begin % [(⟨⟨4, 4⟩, 3⟩ : ArraySize), ⟨⟨8, 8⟩, 2⟩][i].T.align = 0 :=
  make_contiguous_layout_begin_aligned 64 (fun _ => .ok 4100) [⟨⟨4, 4⟩, 3⟩, ⟨⟨8, 8⟩, 2⟩] 4100
    (powTwoAligns_pair 64 2 3 (by decide) (by decide) _ _ rfl rfl) rfl (by decide)

/-- Sizes 4 and 8, alignments 4 and 8, counts 3 and 2 on the 8-aligned address 4096: the first
view ends at `4096 + 12` and the second begins at `4096 + 16`. -/
theorem make_contiguous_layout_minimal_padding_witness :
    setRangeAll 64 [⟨⟨4, 4⟩, 3⟩, ⟨⟨8, 8⟩, 2⟩] 4096
        = [⟨⟨4, 4⟩, 4096, 4096 + 12⟩, ⟨⟨8, 8⟩, 4096 + 16, 4096 + 32⟩]
    ∧ ∃ layout, make_contiguous_layout 64 (fun _ => .ok 4096) [⟨⟨4, 4⟩, 3⟩, ⟨⟨8, 8⟩, 2⟩]
        = ([Event.allocate (numElements 64 [⟨⟨4, 4⟩, 3⟩, ⟨⟨8, 8⟩, 2⟩])], .ok layout)
      ∧ layout.length = [(⟨⟨4, 4⟩, 3⟩ : ArraySize), ⟨⟨8, 8⟩, 2⟩].length
      ∧ ∀ (i : Nat) (hi : i + 1 < [(⟨⟨4, 4⟩, 3⟩ : ArraySize), ⟨⟨8, 8⟩, 2⟩].length)
          (hj : i + 1 < layout.length),
          layout[i].m_end ≤ layout[i + 1].m_begin
          ∧ layout[i + 1].m_begin % [(⟨⟨4, 4⟩, 3⟩ : ArraySize), ⟨⟨8, 8⟩, 2⟩][i + 1].T.align = 0
          ∧ (∀ d, (layout[i].m_end + d)
                % [(⟨⟨4, 4⟩, 3⟩ : ArraySize), ⟨⟨8, 8⟩, 2⟩][i + 1].T.align = 0 →
              layout[i + 1].m_begin - layout[i].m_end ≤ d)
          ∧ layout[i + 1].m_begin - layout[i].m_end
              < [(⟨⟨4, 4⟩, 3⟩ : ArraySize), ⟨⟨8, 8⟩, 2⟩][i + 1].T.align :=
  ⟨by decide,
    make_contiguous_layout_minimal_padding 64 (fun _ => .ok 4096) [⟨⟨4, 4⟩, 3⟩, ⟨⟨8, 8⟩, 2⟩] 4096
      (powTwoAligns_pair 64 2 3 (by decide) (by decide) _ _ rfl rfl) rfl (by decide)⟩

/-- The views of three 4-byte and two 8-byte elements report the sizes 3 and 2. -/
theorem make_contiguous_layout_size_eq_count_witness :
    ∃ layout, make_contiguous_layout 64 (fun _ => .ok 4096) [⟨⟨4, 4⟩, 3⟩, ⟨⟨8, 8⟩, 2⟩]
        = ([Event.allocate (numElements 64 [⟨⟨4, 4⟩, 3⟩, ⟨⟨8, 8⟩, 2⟩])], .ok layout)
      ∧ layout.length = [(⟨⟨4, 4⟩, 3⟩ : ArraySize), ⟨⟨8, 8⟩, 2⟩].length
      ∧ ∀ (i : Nat) (hi : i < [(⟨⟨4, 4⟩, 3⟩ : ArraySize), ⟨⟨8, 8⟩, 2⟩].length)
          (hj : i < layout.length),
          0 < [(⟨⟨4, 4⟩, 3⟩ : ArraySize), ⟨⟨8, 8⟩, 2⟩][i].T.size →
          [(⟨⟨4, 4⟩, 3⟩ : ArraySize), ⟨⟨8, 8⟩, 2⟩][i].m_count
            * [(⟨⟨4, 4⟩, 3⟩ : ArraySize), ⟨⟨8, 8⟩, 2⟩][i].T.size < 2 ^ (64 - 1) →
          layout[i].size 64 = [(⟨⟨4, 4⟩, 3⟩ : ArraySize), ⟨⟨8, 8⟩, 2⟩][i].m_count :=
  make_contiguous_layout_size_eq_count 64 (fun _ => .ok 4096) [⟨⟨4, 4⟩, 3⟩, ⟨⟨8, 8⟩, 2⟩] 4096 rfl

/-- C7 does not hold up to `2 ^ w`: on 64-bit words a request for `2 ^ 62` elements of size 2
does not overflow, `2 ^ 62 * 2 < 2 ^ 64`, and `make_contiguous_layout` returns the view
`[4096, 4096 + 2 ^ 63)`; its byte distance `2 ^ 63` is negative as a signed pointer difference,
and `size()` is `2 ^ 64 - 2 ^ 62`, not the count `2 ^ 62`. -/
theorem make_contiguous_layout_size_ne_count :
    make_contiguous_layout 64 (fun _ => .ok 4096) [⟨⟨2, 2⟩, 2 ^ 62⟩]
      = ([Event.allocate (2 ^ 62)], .ok [⟨⟨2, 2⟩, 4096, 4096 + 2 ^ 63⟩])
    ∧ 2 ^ 62 * 2 < 2 ^ 64
    ∧ span.size 64 ⟨⟨2, 2⟩, 4096, 4096 + 2 ^ 63⟩ = 2 ^ 64 - 2 ^ 62
    ∧ span.size 64 ⟨⟨2, 2⟩, 4096, 4096 + 2 ^ 63⟩ ≠ 2 ^ 62 :=
  ⟨rfl, by decide, by decide, by decide⟩

/-- Twelve bytes of 4-byte elements and sixteen bytes of 8-byte elements need four 8-byte
units. -/
theorem numElements_exact_witness :
    numElements 64 [⟨⟨4, 4⟩, 3⟩, ⟨⟨8, 8⟩, 2⟩] = 4
    ∧ numElements 64 [⟨⟨4, 4⟩, 3⟩, ⟨⟨8, 8⟩, 2⟩]
        * sizeofStorage ([(⟨⟨4, 4⟩, 3⟩ : ArraySize), ⟨⟨8, 8⟩, 2⟩].map (·.T))
      = paddedNumBytes 64 [⟨⟨4, 4⟩, 3⟩, ⟨⟨8, 8⟩, 2⟩] :=
  ⟨by decide,
    (numElements_exact 64 [⟨⟨4, 4⟩, 3⟩, ⟨⟨8, 8⟩, 2⟩] (by decide)
      (powTwoAligns_pair 64 2 3 (by decide) (by decide) _ _ rfl rfl)).2.2.2.1⟩

/-- C2: all-or-nothing construction, evaluated where the code breaks it.  Sequence 0 uses
`arg(input_iterator, 2, it)` and sequence 1 uses `arg(ctor, 1)`, whose only construction
throws.  `initRanges` has no branch for `input_iterator_t`, so no element of sequence 0 is
constructed, and its exception guard still destroys both elements of sequence 0: two
destructor calls against zero completed constructions. -/
theorem make_contiguous_objects_destroys_unconstructed :
    make_contiguous_objects 64 (fun _ => .ok 4096)
        (fun s i _ => if s = 1 ∧ i = 0 then some 7 else none)
        [(⟨4, 4⟩, .config (arg_input_iterator 2 [10, 20])), (⟨4, 4⟩, .config (arg_ctor 1 []))]
      = ([.allocate 3, .destroy 0 1, .destroy 0 0, .operator_delete 4096], .error 7) := by
  rfl

/-- C3: release on failure, evaluated where the code breaks it.  One sequence of one element
whose construction throws: the region obtained by `allocate(1)` is released by `MemGuard`
through the global `::operator delete`, and the trace holds no `deallocate` call on the memory
source. -/
theorem make_contiguous_objects_releases_by_operator_delete :
    make_contiguous_objects 64 (fun _ => .ok 4096) (fun _ _ _ => some 7) [(⟨4, 4⟩, .count 1)]
      = ([.allocate 1, .operator_delete 4096], .error 7) := by
  rfl

/-- C10: the input-iterator strategy, evaluated where the code breaks it.  One sequence built
with `arg(input_iterator, 4, it)` over four items, no constructor failure:
`make_contiguous_objects` allocates, constructs no element and returns the view of four
elements. -/
theorem make_contiguous_objects_input_iterator_constructs_nothing :
    make_contiguous_objects 64 (fun _ => .ok 4096) (fun _ _ _ => none)
        [(⟨4, 4⟩, .config (arg_input_iterator 4 [10, 20, 30, 40]))]
      = ([.allocate 4], .ok [⟨⟨4, 4⟩, 4096, 4112⟩]) := by
  rfl

/-! ## The planner and the pointer walk -/

theorem addRequiredBytesOffsets_length (w : Nat) (args : List ArraySize) (pos : Nat) :
    (addRequiredBytesOffsets w args pos).length = args.length := by
  induction args generalizing pos with
  | nil => rfl
  | cons init rest ih => simp [addRequiredBytesOffsets, ih]

theorem setRange_begin_shift (w K base : Nat) (hK : K < w) (hbase : base % 2 ^ K = 0)
    (init : ArraySize) (k : Nat) (hk : k ≤ K) (ha : init.T.align = 2 ^ k) (pos : Nat)
    (hpos : pos < 2 ^ w) :
    (setRange w init (wrap w (base + pos))).1.m_begin
      = wrap w (base + wrap w (pos + findDistanceOfNextAlignedPosition w pos init.T.align)) := by
  have hkw : k < w := lt_of_le_of_lt hk hK
  simp only [setRange, ha]
  rw [findDistance_eq_padTo w k _ hkw (wrap_lt _ _), findDistance_eq_padTo w k pos hkw hpos]
  have hp : padTo (wrap w (base + pos)) (2 ^ k) = padTo pos (2 ^ k) := by
    apply padTo_congr
    rw [wrap_mod_two_pow w k _ (Nat.le_of_lt hkw)]
    exact add_mod_of_mod_eq_zero _ _ _ (mod_pow_of_le base k K hk hbase)
  rw [hp]
  simp only [wrap, Nat.mod_add_mod, Nat.add_mod_mod]
  congr 1
  omega

theorem setRangeAll_eq_offsets (w K base : Nat) (hK : K < w) (hbase : base % 2 ^ K = 0)
    (args : List ArraySize) (hall : ∀ init ∈ args, ∃ k, k ≤ K ∧ init.T.align = 2 ^ k)
    (pos : Nat) (hpos : pos < 2 ^ w) (i : Nat)
    (hi : i < (setRangeAll w args (wrap w (base + pos))).length)
    (hj : i < (addRequiredBytesOffsets w args pos).length) :
    (setRangeAll w args (wrap w (base + pos)))[i].m_begin
        = wrap w (base + (addRequiredBytesOffsets w args pos)[i].1)
    ∧ (setRangeAll w args (wrap w (base + pos)))[i].m_end
        = wrap w (base + (addRequiredBytesOffsets w args pos)[i].2) := by
  induction args generalizing pos i with
  | nil => simp [setRangeAll] at hi
  | cons a rest ih =>
    obtain ⟨k, hk, ha⟩ := hall a (List.mem_cons_self _ _)
    have hsnd := setRange_snd_shift w K base hK hbase a k hk ha pos hpos
    cases i with
    | zero =>
      simp only [setRangeAll, addRequiredBytesOffsets, List.getElem_cons_zero]
      exact ⟨setRange_begin_shift w K base hK hbase a k hk ha pos hpos, hsnd⟩
    | succ j =>
      simp only [setRangeAll, addRequiredBytesOffsets, List.getElem_cons_succ, hsnd]
      have hi2 : j < (setRangeAll w rest (wrap w (base + addRequiredBytes w a pos))).length := by
        simp only [setRangeAll, List.length_cons, hsnd] at hi
        omega
      exact ih (fun x hx => hall x (List.mem_cons_of_mem _ hx)) _ (addRequiredBytes_lt _ _ _) j
        hi2 _

/-- C16: the planner and the pointer walk agree.  For power-of-two element alignments and a
region address `amem` below `2 ^ w` that is a multiple of the storage-unit alignment, the begin
and end address that `setRange` gives view `i` are `amem` plus the start and end offset the
`addRequiredBytes` pass reaches for sequence `i` from position 0, as `w`-bit sums, and exactly
so whenever the sum does not wrap; the last view ends at `amem` plus the unpadded byte
total. -/
theorem setRange_agrees_with_addRequiredBytes (w : Nat) (allocate : Nat → Except Nat Nat)
    (args : List ArraySize) (amem : Nat) (hal : PowTwoAligns w args)
    (hmem : allocate (numElements w args) = .ok amem) (hlt : amem < 2 ^ w)
    (hbase : amem % alignofStorage (args.map (·.T)) = 0) :
    ∃ layout, make_contiguous_layout w allocate args
        = ([Event.allocate (numElements w args)], .ok layout)
      ∧ layout.length = args.length
      ∧ (addRequiredBytesOffsets w args 0).length = args.length
      ∧ (∀ (i : Nat) (hi : i < layout.length) (hj : i < (addRequiredBytesOffsets w args 0).length),
          layout[i].m_begin = wrap w (amem + (addRequiredBytesOffsets w args 0)[i].1)
          ∧ layout[i].m_end = wrap w (amem + (addRequiredBytesOffsets w args 0)[i].2)
          ∧ (amem + (addRequiredBytesOffsets w args 0)[i].1 < 2 ^ w →
              layout[i].m_begin = amem + (addRequiredBytesOffsets w args 0)[i].1)
          ∧ (amem + (addRequiredBytesOffsets w args 0)[i].2 < 2 ^ w →
              layout[i].m_end = amem + (addRequiredBytesOffsets w args 0)[i].2))
      ∧ (args ≠ [] →
          (layout.getLastD default).m_end = wrap w (amem + addRequiredBytesAll w args 0)
          ∧ (amem + addRequiredBytesAll w args 0 < 2 ^ w →
              (layout.getLastD default).m_end = amem + addRequiredBytesAll w args 0)) := by
  refine ⟨setRangeAll w args amem, ?_, setRangeAll_length _ _ _,
    addRequiredBytesOffsets_length _ _ _, ?_, ?_⟩
  · simp [make_contiguous_layout, hmem]
  · intro i hi hj
    have hw : 0 < w := by
      cases args with
      | nil => simp [setRangeAll] at hi
      | cons a rest =>
        obtain ⟨k, hk, _⟩ := hal a (List.mem_cons_self _ _)
        omega
    obtain ⟨K, hK, hA, hall⟩ := alignofStorage_pow w args hw hal
    rw [hA] at hbase
    have h := setRangeAll_eq_offsets w K amem hK hbase args hall 0 (Nat.two_pow_pos w) i
      (by simpa [wrap_of_lt w amem hlt] using hi) hj
    simp only [Nat.add_zero, wrap_of_lt w amem hlt] at h
    refine ⟨h.1, h.2, ?_, ?_⟩
    · intro hno; rw [h.1, wrap_of_lt w _ hno]
    · intro hno; rw [h.2, wrap_of_lt w _ hno]
  · intro hne
    have hw : 0 < w := by
      cases args with
      | nil => exact absurd rfl hne
      | cons a rest =>
        obtain ⟨k, hk, _⟩ := hal a (List.mem_cons_self _ _)
        omega
    obtain ⟨K, hK, hA, hall⟩ := alignofStorage_pow w args hw hal
    rw [hA] at hbase
    have hlast := setRangeAll_last_end w K amem hK hbase args hne hall 0 (Nat.two_pow_pos w)
      default
    rw [Nat.add_zero, wrap_of_lt w amem hlt] at hlast
    refine ⟨hlast, ?_⟩
    intro hno
    rw [hlast, wrap_of_lt w _ hno]

/-- Offsets `(0, 12)` and `(16, 32)` of the planner against the views placed from 4096. -/
theorem setRange_agrees_with_addRequiredBytes_witness :
    addRequiredBytesOffsets 64 [⟨⟨4, 4⟩, 3⟩, ⟨⟨8, 8⟩, 2⟩] 0 = [(0, 12), (16, 32)]
    ∧ setRangeAll 64 [⟨⟨4, 4⟩, 3⟩, ⟨⟨8, 8⟩, 2⟩] 4096
        = [⟨⟨4, 4⟩, 4096 + 0, 4096 + 12⟩, ⟨⟨8, 8⟩, 4096 + 16, 4096 + 32⟩]
    ∧ ∃ layout, make_contiguous_layout 64 (fun _ => .ok 4096) [⟨⟨4, 4⟩, 3⟩, ⟨⟨8, 8⟩, 2⟩]
        = ([Event.allocate (numElements 64 [⟨⟨4, 4⟩, 3⟩, ⟨⟨8, 8⟩, 2⟩])], .ok layout)
      ∧ layout.length = [(⟨⟨4, 4⟩, 3⟩ : ArraySize), ⟨⟨8, 8⟩, 2⟩].length := by
  obtain ⟨layout, h1, h2, _⟩ := setRange_agrees_with_addRequiredBytes 64 (fun _ => .ok 4096)
    [⟨⟨4, 4⟩, 3⟩, ⟨⟨8, 8⟩, 2⟩] 4096
    (powTwoAligns_pair 64 2 3 (by decide) (by decide) _ _ rfl rfl) rfl (by decide) (by decide)
  exact ⟨by decide, by decide, layout, h1, h2⟩

/-! ## The views inside the region -/

theorem packedSpan_shift (K base : Nat) (hbase : base % 2 ^ K = 0) (args : List ArraySize)
    (hall : ∀ init ∈ args, ∃ k, k ≤ K ∧ init.T.align = 2 ^ k) (pos : Nat) :
    packedSpan args (base + pos) = base + packedSpan args pos := by
  induction args generalizing pos with
  | nil => rfl
  | cons a rest ih =>
    obtain ⟨k, hk, ha⟩ := hall a (List.mem_cons_self _ _)
    have hp : padTo (base + pos) a.T.align = padTo pos a.T.align := by
      apply padTo_congr
      rw [ha]
      exact add_mod_of_mod_eq_zero _ _ _ (mod_pow_of_le base k K hk hbase)
    simp only [packedSpan, hp]
    rw [← ih (fun x hx => hall x (List.mem_cons_of_mem _ hx))]
    congr 1
    omega

theorem setRangeAll_bounds (w : Nat) (args : List ArraySize) (mem : Nat)
    (hal : PowTwoAligns w args) (hno : packedSpan args mem < 2 ^ w) (i : Nat)
    (hi : i < (setRangeAll w args mem).length) :
    mem ≤ (setRangeAll w args mem)[i].m_begin
    ∧ (setRangeAll w args mem)[i].m_begin ≤ (setRangeAll w args mem)[i].m_end
    ∧ (setRangeAll w args mem)[i].m_end ≤ packedSpan args mem := by
  induction args generalizing mem i with
  | nil => simp [setRangeAll] at hi
  | cons a rest ih =>
    obtain ⟨k, hk, ha⟩ := hal a (List.mem_cons_self _ _)
    have hrest : PowTwoAligns w rest := fun x hx => hal x (List.mem_cons_of_mem _ hx)
    simp only [packedSpan] at hno ⊢
    have hge := packedSpan_ge rest (mem + padTo mem a.T.align + a.m_count * a.T.size)
    have hset := setRange_of_lt w a mem k hk ha (by omega)
    cases i with
    | zero =>
      simp only [setRangeAll, List.getElem_cons_zero, hset]
      omega
    | succ j =>
      simp only [setRangeAll, List.getElem_cons_succ, hset]
      have hi2 : j < (setRangeAll w rest
          (mem + padTo mem a.T.align + a.m_count * a.T.size)).length := by
        simp only [setRangeAll, List.length_cons, hset] at hi
        omega
      have := ih _ hrest hno j hi2
      omega

theorem numElements_mul_of_lt (w : Nat) (args : List ArraySize) (hw : 0 < w)
    (hal : PowTwoAligns w args)
    (hno : packedSpan args 0 + padTo (packedSpan args 0) (alignofStorage (args.map (·.T)))
      < 2 ^ w) :
    numElements w args * sizeofStorage (args.map (·.T))
      = packedSpan args 0 + padTo (packedSpan args 0) (alignofStorage (args.map (·.T))) := by
  obtain ⟨K, hK, hA, _⟩ := alignofStorage_pow w args hw hal
  rw [hA] at hno
  have hplan : addRequiredBytesAll w args 0 = packedSpan args 0 :=
    addRequiredBytesAll_of_lt w args 0 hal (by omega)
  have hpad : paddedNumBytes w args = packedSpan args 0 + padTo (packedSpan args 0) (2 ^ K) := by
    simp only [paddedNumBytes, hA, hplan]
    rw [findDistance_eq_padTo w K _ hK (by omega), wrap_of_lt w _ hno]
  simp only [numElements, sizeofStorage, hA, hpad]
  apply Nat.div_mul_cancel
  exact Nat.dvd_of_mod_eq_zero (padTo_add_mod _ _ (Nat.two_pow_pos K))

/-- C18: the views stay inside the allocated region.  For power-of-two element alignments and
a region address `amem` that is a multiple of the storage-unit alignment, when the region end,
`amem` plus the packed span rounded up to the storage-unit alignment in unbounded arithmetic,
is below `2 ^ w`, every view satisfies
`amem ≤ begin ≤ end ≤ amem + numElements * sizeof(Storage)`. -/
theorem views_inside_region (w : Nat) (allocate : Nat → Except Nat Nat)
    (args : List ArraySize) (amem : Nat) (hal : PowTwoAligns w args)
    (hmem : allocate (numElements w args) = .ok amem)
    (hbase : amem % alignofStorage (args.map (·.T)) = 0)
    (hno : amem + (packedSpan args 0
      + padTo (packedSpan args 0) (alignofStorage (args.map (·.T)))) < 2 ^ w) :
    ∃ layout, make_contiguous_layout w allocate args
        = ([Event.allocate (numElements w args)], .ok layout)
      ∧ layout.length = args.length
      ∧ ∀ (i : Nat) (hi : i < layout.length),
          amem ≤ layout[i].m_begin
          ∧ layout[i].m_begin ≤ layout[i].m_end
          ∧ layout[i].m_end ≤ amem + numElements w args * sizeofStorage (args.map (·.T)) := by
  refine ⟨setRangeAll w args amem, ?_, setRangeAll_length _ _ _, ?_⟩
  · simp [make_contiguous_layout, hmem]
  · intro i hi
    have hw : 0 < w := by
      cases args with
      | nil => simp [setRangeAll] at hi
      | cons a rest =>
        obtain ⟨k, hk, _⟩ := hal a (List.mem_cons_self _ _)
        omega
    obtain ⟨K, hK, hA, hall⟩ := alignofStorage_pow w args hw hal
    rw [numElements_mul_of_lt w args hw hal (by omega)]
    rw [hA] at hbase
    have hshift := packedSpan_shift K amem hbase args hall 0
    rw [Nat.add_zero] at hshift
    have hb := setRangeAll_bounds w args amem hal (by rw [hshift]; omega) i hi
    rw [hshift] at hb
    omega

/-- Both views of the 4/8-byte layout lie in the 32 bytes allocated at 4096. -/
theorem views_inside_region_witness :
    numElements 64 [⟨⟨4, 4⟩, 3⟩, ⟨⟨8, 8⟩, 2⟩] * sizeofStorage [⟨4, 4⟩, ⟨8, 8⟩] = 32
    ∧ ∃ layout, make_contiguous_layout 64 (fun _ => .ok 4096) [⟨⟨4, 4⟩, 3⟩, ⟨⟨8, 8⟩, 2⟩]
        = ([Event.allocate (numElements 64 [⟨⟨4, 4⟩, 3⟩, ⟨⟨8, 8⟩, 2⟩])], .ok layout)
      ∧ layout.length = [(⟨⟨4, 4⟩, 3⟩ : ArraySize), ⟨⟨8, 8⟩, 2⟩].length
      ∧ ∀ (i : Nat) (hi : i < layout.length),
          4096 ≤ layout[i].m_begin
          ∧ layout[i].m_begin ≤ layout[i].m_end
          ∧ layout[i].m_end ≤ 4096 + numElements 64 [⟨⟨4, 4⟩, 3⟩, ⟨⟨8, 8⟩, 2⟩]
              * sizeofStorage ([(⟨⟨4, 4⟩, 3⟩ : ArraySize), ⟨⟨8, 8⟩, 2⟩].map (·.T)) :=
  ⟨by decide,
    views_inside_region 64 (fun _ => .ok 4096) [⟨⟨4, 4⟩, 3⟩, ⟨⟨8, 8⟩, 2⟩] 4096
      (powTwoAligns_pair 64 2 3 (by decide) (by decide) _ _ rfl rfl) rfl (by decide)
      (by decide)⟩

/-- C19: the first view starts at the region base.  For a non-empty list of sequences with
power-of-two element alignments and a region address `amem` below `2 ^ w` that is a multiple of
the storage-unit alignment, view 0 begins at `amem`; hence the pointer `MemGuard` releases when
`initRanges` fails is `amem`, the begin pointer `destroy_contiguous_objects` recomputes with
`get_adjacent_address` is `amem`, and its `deallocate` call is made on `amem`. -/
theorem first_view_begins_at_region_base (w : Nat) (allocate : Nat → Except Nat Nat)
    (construct : Nat → Nat → List Nat → Option Nat) (args : List (ElemType × Initializer))
    (amem : Nat) (hne : args ≠ [])
    (hal : PowTwoAligns w (args.map (fun a => ⟨a.1, get_size a.2⟩)))
    (hmem : allocate (numElements w (args.map (fun a => ⟨a.1, get_size a.2⟩))) = .ok amem)
    (hlt : amem < 2 ^ w)
    (hbase : amem % alignofStorage ((args.map (fun a => (⟨a.1, get_size a.2⟩ : ArraySize))).map
      (·.T)) = 0) :
    ∃ layout, make_contiguous_layout w allocate (args.map (fun a => ⟨a.1, get_size a.2⟩))
        = ([Event.allocate (numElements w (args.map (fun a => ⟨a.1, get_size a.2⟩)))],
           .ok layout)
      ∧ (layout.headD default).m_begin = amem
      ∧ get_adjacent_address w (alignofStorage (layout.map (·.T)))
          (layout.headD default).m_begin = amem
      ∧ (∀ e, (initRanges w construct layout (args.map (fun a => convert_arg a.2))).2 = some e →
          make_contiguous_objects w allocate construct args
            = ([Event.allocate (numElements w (args.map (fun a => ⟨a.1, get_size a.2⟩)))]
                ++ (initRanges w construct layout (args.map (fun a => convert_arg a.2))).1
                ++ operator_delete amem, .error e))
      ∧ ∃ numElts, destroy_contiguous_objects w layout
          = reverseDestroyAll w 0 layout ++ [Event.deallocate amem numElts] := by
  have hne2 : args.map (fun a => (⟨a.1, get_size a.2⟩ : ArraySize)) ≠ [] := by
    simpa using hne
  have hw : 0 < w := by
    cases hargs : args.map (fun a => (⟨a.1, get_size a.2⟩ : ArraySize)) with
    | nil => exact absurd hargs hne2
    | cons a rest =>
      obtain ⟨k, hk, _⟩ := hal a (by rw [hargs]; exact List.mem_cons_self _ _)
      omega
  obtain ⟨K, hK, hA, hall⟩ := alignofStorage_pow w _ hw hal
  rw [hA] at hbase
  have hhead := setRangeAll_head_begin w K amem hK hbase hlt _ hne2 hall default
  refine ⟨setRangeAll w (args.map (fun a => ⟨a.1, get_size a.2⟩)) amem, ?_, hhead, ?_, ?_, ?_⟩
  · simp [make_contiguous_layout, hmem]
  · rw [hhead, setRangeAll_map_T w _ amem, hA]
    exact get_adjacent_address_of_aligned w K amem hK hbase hlt
  · intro e he
    simp only [make_contiguous_objects, make_contiguous_layout, hmem, he, MemGuard.destructor,
      hhead]
  · refine ⟨wrap w (get_adjacent_address w (2 ^ K)
        ((setRangeAll w (args.map (fun a => ⟨a.1, get_size a.2⟩)) amem).getLastD default).m_end
        + (2 ^ w - amem)) / 2 ^ K, ?_⟩
    simp only [destroy_contiguous_objects, hhead, setRangeAll_map_T, hA, sizeofStorage]
    rw [get_adjacent_address_of_aligned w K amem hK hbase hlt]

/-! ## Teardown order -/

theorem reverseDestroyAll_eq (w : Nat) (t : List span) (p : Nat) :
    reverseDestroyAll w p t
      = (teardownOrderFrom p (t.map (span.extent w))).map (fun x => Event.destroy x.1 x.2) := by
  induction t generalizing p with
  | nil => rfl
  | cons sp rest ih =>
    simp only [reverseDestroyAll, List.map_cons, teardownOrderFrom, List.map_append, ih,
      reverse_destroy, elementsOf, List.map_reverse, List.map_map]
    rfl

theorem mem_teardownOrderFrom (p : Nat) (cs : List Nat) (s i : Nat) :
    (s, i) ∈ teardownOrderFrom p cs ↔ p ≤ s ∧ ∃ n, cs[s - p]? = some n ∧ i < n := by
  induction cs generalizing p with
  | nil => simp [teardownOrderFrom]
  | cons c rest ih =>
    simp only [teardownOrderFrom, List.mem_append, List.mem_reverse, mem_elementsOf, ih]
    constructor
    · rintro (⟨rfl, hi⟩ | ⟨hp, n, hn, hi⟩)
      · exact ⟨le_refl _, c, by simp, hi⟩
      · refine ⟨by omega, n, ?_, hi⟩
        have : s - p = (s - (p + 1)) + 1 := by omega
        rw [this, List.getElem?_cons_succ]
        exact hn
    · rintro ⟨hp, n, hn, hi⟩
      rcases Nat.eq_or_lt_of_le hp with rfl | hlt
      · left
        simp only [Nat.sub_self, List.getElem?_cons_zero, Option.some.injEq] at hn
        exact ⟨rfl, by omega⟩
      · right
        refine ⟨hlt, n, ?_, hi⟩
        have : s - p = (s - (p + 1)) + 1 := by omega
        rw [this, List.getElem?_cons_succ] at hn
        exact hn

theorem elementsOf_nodup (seq n : Nat) : (elementsOf seq n).Nodup := by
  unfold elementsOf
  apply List.Nodup.map _ (List.nodup_range n)
  intro a b h
  simpa using h

theorem teardownOrderFrom_nodup (p : Nat) (cs : List Nat) : (teardownOrderFrom p cs).Nodup := by
  induction cs generalizing p with
  | nil => simp [teardownOrderFrom]
  | cons c rest ih =>
    simp only [teardownOrderFrom]
    rw [List.nodup_append]
    refine ⟨List.nodup_reverse.2 (elementsOf_nodup p c), ih (p + 1), ?_⟩
    intro x hx hx2
    obtain ⟨s, i⟩ := x
    rw [List.mem_reverse, mem_elementsOf] at hx
    have := ((mem_teardownOrderFrom (p + 1) rest s i).1 hx2).1
    omega

/-- C12: normal teardown order.  For every tuple of views, `destroy_contiguous_objects` first
destroys the elements view by view in declared order, last element first inside each view,
and then makes one `deallocate` call, which is the last event of the trace.  Every element of
every view is destroyed exactly once: the list of destroyed elements has no duplicate and
holds `(s, i)` exactly when `i` is below the number of elements of `[begin, end)` of view `s`.
Nothing is constructed. -/
theorem destroy_contiguous_objects_order (w : Nat) (t : List span) :
    ∃ ptr n, destroy_contiguous_objects w t
        = (teardownOrderFrom 0 (t.map (span.extent w))).map (fun x => Event.destroy x.1 x.2)
          ++ [Event.deallocate ptr n]
      ∧ (teardownOrderFrom 0 (t.map (span.extent w))).Nodup
      ∧ (∀ s i, (s, i) ∈ teardownOrderFrom 0 (t.map (span.extent w))
          ↔ ∃ sp, t[s]? = some sp ∧ i < sp.extent w)
      ∧ destroys (destroy_contiguous_objects w t) = teardownOrderFrom 0 (t.map (span.extent w))
      ∧ constructs (destroy_contiguous_objects w t) = [] := by
  have hrun : destroy_contiguous_objects w t
      = (teardownOrderFrom 0 (t.map (span.extent w))).map (fun x => Event.destroy x.1 x.2)
        ++ [Event.deallocate
            (get_adjacent_address w (alignofStorage (t.map (·.T))) (t.headD default).m_begin)
            (wrap w (get_adjacent_address w (alignofStorage (t.map (·.T)))
                (t.getLastD default).m_end
              + (2 ^ w - get_adjacent_address w (alignofStorage (t.map (·.T)))
                  (t.headD default).m_begin))
              / sizeofStorage (t.map (·.T)))] := by
    simp only [destroy_contiguous_objects, reverseDestroyAll_eq]
  have hd : ∀ l : List (Nat × Nat),
      destroys (l.map (fun x => Event.destroy x.1 x.2)) = l := by
    intro l
    induction l with
    | nil => rfl
    | cons a l ih => simp only [List.map_cons, destroys, List.filterMap_cons] at ih ⊢; rw [ih]
  have hc : ∀ l : List (Nat × Nat),
      constructs (l.map (fun x => Event.destroy x.1 x.2)) = [] := by
    intro l
    induction l with
    | nil => rfl
    | cons a l ih => simp only [List.map_cons, constructs, List.filterMap_cons] at ih ⊢; rw [ih]
  refine ⟨_, _, hrun, teardownOrderFrom_nodup _ _, ?_, ?_, ?_⟩
  · intro s i
    rw [mem_teardownOrderFrom]
    simp only [Nat.zero_le, Nat.sub_zero, true_and, List.getElem?_map, Option.map_eq_some']
    constructor
    · rintro ⟨n, ⟨sp, hsp, rfl⟩, hi⟩
      exact ⟨sp, hsp, hi⟩
    · rintro ⟨sp, hsp, hi⟩
      exact ⟨_, ⟨sp, hsp, rfl⟩, hi⟩
  · rw [hrun, destroys_append, hd]
    simp [destroys]
  · rw [hrun, constructs_append, hc]
    simp [constructs]

/-! ## Allocation failure, bare counts and the generator strategy -/

/-- C11: the generator strategy, evaluated where the code breaks it.  One sequence built with
`arg(functor, 3, fn)`, no constructor failure: `initRanges` has no branch for `functor_t`, so
`make_contiguous_objects` allocates, never invokes the generator, constructs no element and
returns the view of three elements. -/
theorem make_contiguous_objects_functor_constructs_nothing :
    make_contiguous_objects 64 (fun _ => .ok 4096) (fun _ _ _ => none)
        [(⟨4, 4⟩, .config (arg_functor 3 [10, 20, 30]))]
      = ([.allocate 3], .ok [⟨⟨4, 4⟩, 4096, 4108⟩]) := by
  rfl

/-- C13: out-of-memory atomicity.  If the `allocate` call of the memory source fails with `e`,
`make_contiguous_objects` fails with the same `e` and its trace is that one `allocate` call:
no element is constructed or destroyed and nothing is released. -/
theorem make_contiguous_objects_out_of_memory (w : Nat) (allocate : Nat → Except Nat Nat)
    (construct : Nat → Nat → List Nat → Option Nat) (args : List (ElemType × Initializer))
    (e : Nat)
    (hfail : allocate (numElements w (args.map (fun a => ⟨a.1, get_size a.2⟩))) = .error e) :
    make_contiguous_objects w allocate construct args
      = ([Event.allocate (numElements w (args.map (fun a => ⟨a.1, get_size a.2⟩)))],
         .error e) := by
  simp only [make_contiguous_objects, make_contiguous_layout, hfail]

/-- A memory source that always fails with 12. -/
theorem make_contiguous_objects_out_of_memory_witness :
    make_contiguous_objects 64 (fun _ => .error 12) (fun _ _ _ => none)
        [(⟨4, 4⟩, .count 3), (⟨8, 8⟩, .config (arg_fill_ctor 2 [5]))]
      = ([Event.allocate (numElements 64
            ([((⟨4, 4⟩ : ElemType), Initializer.count 3),
              (⟨8, 8⟩, .config (arg_fill_ctor 2 [5]))].map
              (fun a => ⟨a.1, get_size a.2⟩)))],
         .error 12) :=
  make_contiguous_objects_out_of_memory 64 (fun _ => .error 12) (fun _ _ _ => none)
    [(⟨4, 4⟩, .count 3), (⟨8, 8⟩, .config (arg_fill_ctor 2 [5]))] 12 rfl

/-- C14: omitted strategy.  For a bare count `n`, `convert_arg` yields the configuration
`arg(ctor, n)`: command `ctor_t`, `m_count = n`, an empty argument tuple; `get_size` is `n` for
the bare count and for `arg(ctor, n)`; and replacing a bare count by `arg(ctor, n)` anywhere in
the argument list leaves the whole run of `make_contiguous_objects` unchanged: same trace, same
layout, same outcome. -/
theorem make_contiguous_objects_bare_count (w : Nat) (allocate : Nat → Except Nat Nat)
    (construct : Nat → Nat → List Nat → Option Nat)
    (before after : List (ElemType × Initializer)) (T : ElemType) (n : Nat) :
    convert_arg (.count n) = arg_ctor n []
    ∧ (convert_arg (.count n)).command = .ctor_t
    ∧ (convert_arg (.count n)).m_count = n
    ∧ (convert_arg (.count n)).m_args = .tuple []
    ∧ get_size (.count n) = n
    ∧ get_size (.config (arg_ctor n [])) = n
    ∧ make_contiguous_objects w allocate construct (before ++ (T, .count n) :: after)
        = make_contiguous_objects w allocate construct
            (before ++ (T, .config (arg_ctor n [])) :: after) := by
  refine ⟨rfl, rfl, rfl, rfl, rfl, rfl, ?_⟩
  simp only [make_contiguous_objects, List.map_append, List.map_cons, get_size, convert_arg,
    arg_count, arg_ctor]

/-! ## The first failing construction -/

theorem initRange_of_branch (construct : Nat → Nat → List Nat → Option Nat) (tupPos n : Nat)
    (ac : InitializerConfiguration) (h : ac.command.hasBranch = true) :
    initRange construct tupPos n ac
      = uninitialized_allocator_construct_n construct tupPos n (constructArgs ac) := by
  unfold initRange constructArgs
  cases hc : ac.command <;> simp only [hc, Command.hasBranch] at h ⊢
  · rfl
  · rfl
  · rfl
  all_goals exact absurd h (by decide)

theorem initRange_of_no_branch (construct : Nat → Nat → List Nat → Option Nat) (tupPos n : Nat)
    (ac : InitializerConfiguration) (h : ac.command.hasBranch = false) :
    initRange construct tupPos n ac = ([], none) := by
  unfold initRange
  cases hc : ac.command <;> simp only [hc, Command.hasBranch] at h ⊢
  all_goals exact absurd h (by decide)

theorem initRange_first_failure (construct : Nat → Nat → List Nat → Option Nat) (tupPos n : Nat)
    (ac : InitializerConfiguration) :
    (∀ e, (initRange construct tupPos n ac).2 = some e →
        ac.command.hasBranch = true
        ∧ ∃ m, m < n ∧ construct tupPos m (constructArgs ac) = some e
          ∧ ∀ i, i < m → construct tupPos i (constructArgs ac) = none)
    ∧ ((initRange construct tupPos n ac).2 = none →
        ac.command.hasBranch = true → ∀ i, i < n → construct tupPos i (constructArgs ac) = none) := by
  cases hb : ac.command.hasBranch with
  | false =>
    rw [initRange_of_no_branch construct tupPos n ac hb]
    simp
  | true =>
    rw [initRange_of_branch construct tupPos n ac hb]
    obtain ⟨c', _, hnone, hok, hfail⟩ :=
      uninitialized_allocator_construct_n_spec construct tupPos n (constructArgs ac)
    constructor
    · intro e he
      obtain ⟨hlt, hce, _⟩ := hfail e he
      exact ⟨rfl, c', hlt, hce, hnone⟩
    · intro h _ i hi
      obtain ⟨hc, _⟩ := hok h
      exact hnone i (by omega)

theorem initRangesFrom_first_failure (construct : Nat → Nat → List Nat → Option Nat)
    (l : List (Nat × InitializerConfiguration)) (p : Nat) :
    (∀ e, (initRangesFrom construct p l).2 = some e →
        ∃ j n ac m, l[j]? = some (n, ac) ∧ ac.command.hasBranch = true ∧ m < n
          ∧ construct (p + j) m (constructArgs ac) = some e
          ∧ ∀ j2 n2 ac2 i, l[j2]? = some (n2, ac2) → ac2.command.hasBranch = true → i < n2 →
              (j2 < j ∨ (j2 = j ∧ i < m)) → construct (p + j2) i (constructArgs ac2) = none)
    ∧ ((initRangesFrom construct p l).2 = none →
        ∀ j n ac i, l[j]? = some (n, ac) → ac.command.hasBranch = true → i < n →
          construct (p + j) i (constructArgs ac) = none) := by
  induction l generalizing p with
  | nil => simp [initRangesFrom]
  | cons x rest ih =>
    obtain ⟨n, ac⟩ := x
    obtain ⟨hfail0, hok0⟩ := initRange_first_failure construct p n ac
    obtain ⟨ihfail, ihok⟩ := ih (p + 1)
    simp only [initRangesFrom]
    cases h0 : (initRange construct p n ac).2 with
    | some e0 =>
      obtain ⟨hb, m, hm, hce, hbefore⟩ := hfail0 e0 h0
      refine ⟨?_, by simp⟩
      intro e he
      have hee : e0 = e := by simpa using he
      subst hee
      refine ⟨0, n, ac, m, by simp, hb, hm, by simpa using hce, ?_⟩
      intro j2 n2 ac2 i hj2 _ _ hlt
      rcases hlt with hlt | ⟨rfl, hi⟩
      · omega
      · simp only [List.getElem?_cons_zero, Option.some.injEq, Prod.mk.injEq] at hj2
        obtain ⟨rfl, rfl⟩ := hj2
        simpa using hbefore i hi
    | none =>
      have hhead : ∀ n2 ac2 i, (((n, ac) :: rest)[0]? = some (n2, ac2)) →
          ac2.command.hasBranch = true → i < n2 → construct (p + 0) i (constructArgs ac2) = none := by
        intro n2 ac2 i h hb hi
        simp only [List.getElem?_cons_zero, Option.some.injEq, Prod.mk.injEq] at h
        obtain ⟨rfl, rfl⟩ := h
        simpa using hok0 h0 hb i hi
      cases h1 : (initRangesFrom construct (p + 1) rest).2 with
      | some e1 =>
        refine ⟨?_, by simp⟩
        intro e he
        have hee : e1 = e := by simpa using he
        subst hee
        obtain ⟨j, n1, ac1, m, hj, hb, hm, hce, hbefore⟩ := ihfail e1 h1
        refine ⟨j + 1, n1, ac1, m, by simpa using hj, hb, hm, ?_, ?_⟩
        · rw [show p + (j + 1) = p + 1 + j by omega]; exact hce
        · intro j2 n2 ac2 i hj2 hb2 hi hlt
          cases j2 with
          | zero => exact hhead n2 ac2 i hj2 hb2 hi
          | succ j3 =>
            rw [show p + (j3 + 1) = p + 1 + j3 by omega]
            apply hbefore j3 n2 ac2 i (by simpa using hj2) hb2 hi
            omega
      | none =>
        refine ⟨by simp, ?_⟩
        intro _ j n2 ac2 i hj hb hi
        cases j with
        | zero => exact hhead n2 ac2 i hj hb hi
        | succ j3 =>
          rw [show p + (j3 + 1) = p + 1 + j3 by omega]
          exact ihok h1 j3 n2 ac2 i (by simpa using hj) hb hi

theorem make_contiguous_objects_run (w : Nat) (allocate : Nat → Except Nat Nat)
    (construct : Nat → Nat → List Nat → Option Nat) (args : List (ElemType × Initializer))
    (amem : Nat)
    (hsz : ∀ a ∈ args, 0 < a.1.size ∧ get_size a.2 * a.1.size < 2 ^ (w - 1))
    (hmem : allocate (numElements w (args.map (fun a => ⟨a.1, get_size a.2⟩))) = .ok amem) :
    make_contiguous_objects w allocate construct args
      = match (initRangesFrom construct 0
            (args.map (fun a => (get_size a.2, convert_arg a.2)))).2 with
        | some e =>
          ([Event.allocate (numElements w (args.map (fun a => ⟨a.1, get_size a.2⟩)))]
              ++ (initRangesFrom construct 0
                    (args.map (fun a => (get_size a.2, convert_arg a.2)))).1
              ++ operator_delete
                  (((setRangeAll w (args.map (fun a => ⟨a.1, get_size a.2⟩)) amem).headD
                    default).m_begin),
            .error e)
        | none =>
          ([Event.allocate (numElements w (args.map (fun a => ⟨a.1, get_size a.2⟩)))]
              ++ (initRangesFrom construct 0
                    (args.map (fun a => (get_size a.2, convert_arg a.2)))).1,
            .ok (setRangeAll w (args.map (fun a => ⟨a.1, get_size a.2⟩)) amem)) := by
  simp only [make_contiguous_objects, make_contiguous_layout, hmem,
    initRanges_on_layout w construct args amem hsz, MemGuard.destructor, MemGuard.release]
  cases (initRangesFrom construct 0 (args.map (fun a => (get_size a.2, convert_arg a.2)))).2 with
  | some e => rfl
  | none => simp [operator_delete]

theorem initRangesFrom_args_first_failure (construct : Nat → Nat → List Nat → Option Nat)
    (args : List (ElemType × Initializer)) :
    (∀ e, (initRangesFrom construct 0
          (args.map (fun a => (get_size a.2, convert_arg a.2)))).2 = some e →
        ∃ k a m, args[k]? = some a ∧ (convert_arg a.2).command.hasBranch = true
          ∧ m < get_size a.2
          ∧ construct k m (constructArgs (convert_arg a.2)) = some e
          ∧ ∀ s b i, args[s]? = some b → (convert_arg b.2).command.hasBranch = true →
              i < get_size b.2 → (s < k ∨ (s = k ∧ i < m)) →
              construct s i (constructArgs (convert_arg b.2)) = none)
    ∧ ((initRangesFrom construct 0
          (args.map (fun a => (get_size a.2, convert_arg a.2)))).2 = none →
        ∀ s b i, args[s]? = some b → (convert_arg b.2).command.hasBranch = true →
          i < get_size b.2 → construct s i (constructArgs (convert_arg b.2)) = none) := by
  obtain ⟨hfail, hok⟩ := initRangesFrom_first_failure construct
    (args.map (fun a => (get_size a.2, convert_arg a.2))) 0
  have hget : ∀ (s : Nat) (b : ElemType × Initializer), args[s]? = some b →
      (args.map (fun a => (get_size a.2, convert_arg a.2)))[s]?
        = some (get_size b.2, convert_arg b.2) := by
    intro s b h
    rw [List.getElem?_map, h]
    rfl
  constructor
  · intro e he
    obtain ⟨j, n, ac, m, hj, hb, hm, hce, hbefore⟩ := hfail e he
    rw [List.getElem?_map, Option.map_eq_some'] at hj
    obtain ⟨a, ha, hpair⟩ := hj
    simp only [Prod.mk.injEq] at hpair
    obtain ⟨rfl, rfl⟩ := hpair
    refine ⟨j, a, m, ha, hb, hm, by simpa using hce, ?_⟩
    intro s b i hs hbb hi hlt
    simpa using hbefore s _ _ i (hget s b hs) hbb hi hlt
  · intro h s b i hs hbb hi
    simpa using hok h s _ _ i (hget s b hs) hbb hi

/-- C15: failure identity.  With a successful allocation, positive element sizes and
`count * sizeof(T)` below `2 ^ (w - 1)` (so that the signed pointer difference behind `size()`
is the count): if the constructor throws `e` at element `m` of sequence `k`
and every construction the code attempts before it completes, `make_contiguous_objects` fails
with `e`; if the call fails with `e`, then `e` is what the constructor threw at the first
construction that did not complete; and if the call succeeds, every construction it attempted
completed.  The constructions attempted are those of the sequences whose command has a branch
in `initRanges`, with the arguments of that branch. -/
theorem make_contiguous_objects_failure_identity (w : Nat) (allocate : Nat → Except Nat Nat)
    (construct : Nat → Nat → List Nat → Option Nat) (args : List (ElemType × Initializer))
    (amem : Nat)
    (hsz : ∀ a ∈ args, 0 < a.1.size ∧ get_size a.2 * a.1.size < 2 ^ (w - 1))
    (hmem : allocate (numElements w (args.map (fun a => ⟨a.1, get_size a.2⟩))) = .ok amem) :
    (∀ k a m e, args[k]? = some a → (convert_arg a.2).command.hasBranch = true →
        m < get_size a.2 → construct k m (constructArgs (convert_arg a.2)) = some e →
        (∀ s b i, args[s]? = some b → (convert_arg b.2).command.hasBranch = true →
          i < get_size b.2 → (s < k ∨ (s = k ∧ i < m)) →
          construct s i (constructArgs (convert_arg b.2)) = none) →
        (make_contiguous_objects w allocate construct args).2 = .error e)
    ∧ (∀ e, (make_contiguous_objects w allocate construct args).2 = .error e →
        ∃ k a m, args[k]? = some a ∧ (convert_arg a.2).command.hasBranch = true
          ∧ m < get_size a.2
          ∧ construct k m (constructArgs (convert_arg a.2)) = some e
          ∧ ∀ s b i, args[s]? = some b → (convert_arg b.2).command.hasBranch = true →
              i < get_size b.2 → (s < k ∨ (s = k ∧ i < m)) →
              construct s i (constructArgs (convert_arg b.2)) = none)
    ∧ (∀ layout, (make_contiguous_objects w allocate construct args).2 = .ok layout →
        ∀ s b i, args[s]? = some b → (convert_arg b.2).command.hasBranch = true →
          i < get_size b.2 → construct s i (constructArgs (convert_arg b.2)) = none) := by
  obtain ⟨hfail, hok⟩ := initRangesFrom_args_first_failure construct args
  have hrun := make_contiguous_objects_run w allocate construct args amem hsz hmem
  refine ⟨?_, ?_, ?_⟩
  · intro k a m e hk hb hm hce hbefore
    rw [hrun]
    cases h : (initRangesFrom construct 0
        (args.map (fun a => (get_size a.2, convert_arg a.2)))).2 with
    | none =>
      have := hok h k a m hk hb hm
      rw [hce] at this
      exact absurd this (by simp)
    | some e2 =>
      obtain ⟨j, a2, m2, hj, hb2, hm2, hce2, hbefore2⟩ := hfail e2 h
      have hjk : j = k ∧ m2 = m := by
        by_contra hne
        rcases Nat.lt_trichotomy j k with hlt | heq | hgt
        · have := hbefore j a2 m2 hj hb2 hm2 (Or.inl hlt)
          rw [hce2] at this
          exact absurd this (by simp)
        · subst heq
          rcases Nat.lt_trichotomy m2 m with hlt | heq2 | hgt
          · have := hbefore j a2 m2 hj hb2 hm2 (Or.inr ⟨rfl, hlt⟩)
            rw [hce2] at this
            exact absurd this (by simp)
          · exact hne ⟨rfl, heq2⟩
          · have := hbefore2 j a m hk hb hm (Or.inr ⟨rfl, hgt⟩)
            rw [hce] at this
            exact absurd this (by simp)
        · have := hbefore2 k a m hk hb hm (Or.inl hgt)
          rw [hce] at this
          exact absurd this (by simp)
      obtain ⟨rfl, rfl⟩ := hjk
      rw [hk] at hj
      have haa : a = a2 := by simpa using hj
      subst haa
      rw [hce] at hce2
      have : e = e2 := by simpa using hce2
      subst this
      rfl
  · intro e he
    rw [hrun] at he
    cases h : (initRangesFrom construct 0
        (args.map (fun a => (get_size a.2, convert_arg a.2)))).2 with
    | none => rw [h] at he; simp at he
    | some e2 =>
      rw [h] at he
      have : e2 = e := by simpa using he
      subst this
      exact hfail e2 h
  · intro layout hl
    rw [hrun] at hl
    cases h : (initRangesFrom construct 0
        (args.map (fun a => (get_size a.2, convert_arg a.2)))).2 with
    | some e2 => rw [h] at hl; simp at hl
    | none => exact hok h

/-! ## The success path -/

theorem allElementsFrom_length (p : Nat) (cs : List Nat) :
    (allElementsFrom p cs).length = cs.sum := by
  induction cs generalizing p with
  | nil => rfl
  | cons c rest ih => simp [allElementsFrom, elementsOf, ih]

theorem constructs_length_of_all_construct (tr : List Event)
    (h : ∀ ev ∈ tr, ∃ s i xs, ev = Event.construct s i xs) :
    (constructs tr).length = tr.length := by
  induction tr with
  | nil => rfl
  | cons ev rest ih =>
    obtain ⟨s, i, xs, rfl⟩ := h _ (List.mem_cons_self _ _)
    have := ih (fun x hx => h x (List.mem_cons_of_mem _ hx))
    simp only [constructs, List.filterMap_cons, List.length_cons] at this ⊢
    omega

theorem construct_of_isElementEvent (tr : List Event)
    (hel : ∀ ev ∈ tr, ev.isElementEvent = true) (hd : destroys tr = []) :
    ∀ ev ∈ tr, ∃ s i xs, ev = Event.construct s i xs := by
  intro ev hev
  have h1 := hel ev hev
  cases ev with
  | construct s i xs => exact ⟨s, i, xs, rfl⟩
  | destroy s i =>
    have := mem_destroys_of_mem tr s i hev
    rw [hd] at this
    simp at this
  | allocate n => simp [Event.isElementEvent] at h1
  | deallocate p n => simp [Event.isElementEvent] at h1
  | operator_delete p => simp [Event.isElementEvent] at h1

/-- C17: success path.  For sequences that all use the fixed-argument strategy (a bare count
included), positive element sizes, `count * sizeof(T)` below `2 ^ (w - 1)` (so that the signed
pointer difference behind `size()` is the count), a successful allocation
and no failing construction, `make_contiguous_objects` returns the layout of
`make_contiguous_layout`, and its trace is the one `allocate` call followed by construct
events only: every element of view 0 first to last, then of view 1, and so on, the sum of the
counts in total; no destructor call and no release. -/
theorem make_contiguous_objects_success (w : Nat) (allocate : Nat → Except Nat Nat)
    (construct : Nat → Nat → List Nat → Option Nat) (args : List (ElemType × Initializer))
    (amem : Nat)
    (hctor : ∀ a ∈ args, (convert_arg a.2).command = .ctor_t)
    (hsz : ∀ a ∈ args, 0 < a.1.size ∧ get_size a.2 * a.1.size < 2 ^ (w - 1))
    (hmem : allocate (numElements w (args.map (fun a => ⟨a.1, get_size a.2⟩))) = .ok amem)
    (hok : ∀ s b i, args[s]? = some b → i < get_size b.2 →
      construct s i (constructArgs (convert_arg b.2)) = none) :
    ∃ layout tr,
      make_contiguous_layout w allocate (args.map (fun a => ⟨a.1, get_size a.2⟩))
        = ([Event.allocate (numElements w (args.map (fun a => ⟨a.1, get_size a.2⟩)))],
           .ok layout)
      ∧ make_contiguous_objects w allocate construct args
        = (Event.allocate (numElements w (args.map (fun a => ⟨a.1, get_size a.2⟩))) :: tr,
           .ok layout)
      ∧ (∀ ev ∈ tr, ∃ s i xs, ev = Event.construct s i xs)
      ∧ constructs tr = allElementsFrom 0 (args.map (fun a => get_size a.2))
      ∧ tr.length = (args.map (fun a => get_size a.2)).sum := by
  have hl : ∀ x ∈ args.map (fun a => (get_size a.2, convert_arg a.2)),
      x.2.command.hasBranch = true := by
    intro x hx
    obtain ⟨a, ha, rfl⟩ := List.mem_map.1 hx
    simp only [hctor a ha]
    rfl
  obtain ⟨hfail, _⟩ := initRangesFrom_args_first_failure construct args
  have hnone : (initRangesFrom construct 0
      (args.map (fun a => (get_size a.2, convert_arg a.2)))).2 = none := by
    cases h : (initRangesFrom construct 0
        (args.map (fun a => (get_size a.2, convert_arg a.2)))).2 with
    | none => rfl
    | some e =>
      obtain ⟨k, a, m, hk, _, hm, hce, _⟩ := hfail e h
      have := hok k a m hk hm
      rw [hce] at this
      exact absurd this (by simp)
  have hrun := make_contiguous_objects_run w allocate construct args amem hsz hmem
  rw [hnone] at hrun
  obtain ⟨hd, hc⟩ := (initRangesFrom_rollback construct
    (args.map (fun a => (get_size a.2, convert_arg a.2))) 0 hl).1 hnone
  have hc2 : constructs (initRangesFrom construct 0
      (args.map (fun a => (get_size a.2, convert_arg a.2)))).1
      = allElementsFrom 0 (args.map (fun a => get_size a.2)) := by
    rw [hc, List.map_map]
    rfl
  have hel : ∀ ev ∈ (initRangesFrom construct 0
      (args.map (fun a => (get_size a.2, convert_arg a.2)))).1, ev.isElementEvent = true := by
    rw [← initRanges_on_layout w construct args amem hsz]
    exact initRanges_events w construct _ _
  have hall := construct_of_isElementEvent _ hel hd
  refine ⟨setRangeAll w (args.map (fun a => ⟨a.1, get_size a.2⟩)) amem,
    (initRangesFrom construct 0 (args.map (fun a => (get_size a.2, convert_arg a.2)))).1,
    ?_, ?_, hall, hc2, ?_⟩
  · simp [make_contiguous_layout, hmem]
  · rw [hrun]; rfl
  · rw [← constructs_length_of_all_construct _ hall, hc2, allElementsFrom_length]

/-- Two elements of view 0, then one of view 1, after one allocation. -/
theorem make_contiguous_objects_success_witness :
    make_contiguous_objects 64 (fun _ => .ok 4096) (fun _ _ _ => none)
        [(⟨4, 4⟩, .count 2), (⟨8, 8⟩, .config (arg_ctor 1 [5]))]
      = ([.allocate 2, .construct 0 0 [], .construct 0 1 [], .construct 1 0 [5]],
         .ok [⟨⟨4, 4⟩, 4096, 4104⟩, ⟨⟨8, 8⟩, 4104, 4112⟩])
    ∧ ∃ layout tr,
      make_contiguous_layout 64 (fun _ => .ok 4096)
          ([((⟨4, 4⟩ : ElemType), Initializer.count 2), (⟨8, 8⟩, .config (arg_ctor 1 [5]))].map
            (fun a => ⟨a.1, get_size a.2⟩))
        = ([Event.allocate (numElements 64
              ([((⟨4, 4⟩ : ElemType), Initializer.count 2),
                (⟨8, 8⟩, .config (arg_ctor 1 [5]))].map (fun a => ⟨a.1, get_size a.2⟩)))],
           .ok layout)
      ∧ make_contiguous_objects 64 (fun _ => .ok 4096) (fun _ _ _ => none)
          [(⟨4, 4⟩, .count 2), (⟨8, 8⟩, .config (arg_ctor 1 [5]))]
        = (Event.allocate (numElements 64
              ([((⟨4, 4⟩ : ElemType), Initializer.count 2),
                (⟨8, 8⟩, .config (arg_ctor 1 [5]))].map (fun a => ⟨a.1, get_size a.2⟩))) :: tr,
           .ok layout)
      ∧ (∀ ev ∈ tr, ∃ s i xs, ev = Event.construct s i xs)
      ∧ constructs tr = allElementsFrom 0
          ([((⟨4, 4⟩ : ElemType), Initializer.count 2),
            (⟨8, 8⟩, .config (arg_ctor 1 [5]))].map (fun a => get_size a.2))
      ∧ tr.length
          = ([((⟨4, 4⟩ : ElemType), Initializer.count 2),
              (⟨8, 8⟩, .config (arg_ctor 1 [5]))].map (fun a => get_size a.2)).sum :=
  ⟨rfl, make_contiguous_objects_success 64 (fun _ => .ok 4096) (fun _ _ _ => none)
    [(⟨4, 4⟩, .count 2), (⟨8, 8⟩, .config (arg_ctor 1 [5]))] 4096 (by decide) (by decide) rfl
    (fun _ _ _ _ _ => rfl)⟩

/-- Two sequences built with the fixed-argument strategy; the second element of the second one
throws 7, a later one would throw 9: the call fails with 7. -/
theorem make_contiguous_objects_failure_identity_witness :
    (make_contiguous_objects 64 (fun _ => .ok 4096)
        (fun s i _ => if s = 1 ∧ i = 1 then some 7 else if s = 1 ∧ i = 2 then some 9 else none)
        [(⟨4, 4⟩, .count 2), (⟨8, 8⟩, .config (arg_ctor 3 [5]))]).2
      = .error 7 :=
  (make_contiguous_objects_failure_identity 64 (fun _ => .ok 4096)
    (fun s i _ => if s = 1 ∧ i = 1 then some 7 else if s = 1 ∧ i = 2 then some 9 else none)
    [(⟨4, 4⟩, .count 2), (⟨8, 8⟩, .config (arg_ctor 3 [5]))] 4096
    (by decide) rfl).1 1 (⟨8, 8⟩, .config (arg_ctor 3 [5])) 1 7 rfl rfl (by decide) rfl
    (by
      intro s b i _ _ _ h
      have h1 : ¬ (s = 1 ∧ i = 1) := by omega
      have h2 : ¬ (s = 1 ∧ i = 2) := by omega
      simp [h1, h2])

/-- The first view of the 4/8-byte layout placed at 4096 begins at 4096. -/
theorem first_view_begins_at_region_base_witness :
    ∃ layout, make_contiguous_layout 64 (fun _ => .ok 4096)
          ([((⟨4, 4⟩ : ElemType), Initializer.count 3), (⟨8, 8⟩, .count 2)].map
            (fun a => ⟨a.1, get_size a.2⟩))
        = ([Event.allocate (numElements 64
              ([((⟨4, 4⟩ : ElemType), Initializer.count 3), (⟨8, 8⟩, .count 2)].map
                (fun a => ⟨a.1, get_size a.2⟩)))],
           .ok layout)
      ∧ (layout.headD default).m_begin = 4096
      ∧ get_adjacent_address 64 (alignofStorage (layout.map (·.T)))
          (layout.headD default).m_begin = 4096 := by
  obtain ⟨layout, h1, h2, h3, _⟩ := first_view_begins_at_region_base 64 (fun _ => .ok 4096)
    (fun _ _ _ => none) [(⟨4, 4⟩, .count 3), (⟨8, 8⟩, .count 2)] 4096 (by decide)
    (powTwoAligns_pair 64 2 3 (by decide) (by decide) _ _ rfl rfl) rfl (by decide) (by decide)
  exact ⟨layout, h1, h2, h3⟩

/-! ## Wraparound in the planner -/

theorem addRequiredBytes_eq_mod (w : Nat) (init : ArraySize) (k pos : Nat) (hk : k < w)
    (ha : init.T.align = 2 ^ k) (hpos : pos < 2 ^ w) :
    addRequiredBytes w init pos
      = (pos + padTo pos (2 ^ k) + init.m_count * init.T.size) % 2 ^ w := by
  simp only [addRequiredBytes, ArraySize.numBytes, ha]
  rw [findDistance_eq_padTo w k pos hk hpos]
  simp only [wrap, Nat.add_mod_mod, Nat.mod_add_mod]
  rw [Nat.add_assoc]

/-- C20: no overflow detection in the planner.  `addRequiredBytes` accumulates the position
modulo `2 ^ w`; and for every word width `w ≥ 2`, a request for `2 ^ (w - 1) + 1` elements of
size 2 makes `make_contiguous_layout` ask the memory source for 2 units of one byte, fewer
bytes than the `(2 ^ (w - 1) + 1) * 2` the elements need, and return a layout whenever the
memory source returns a region. -/
theorem numBytes_wraps_unchecked (w : Nat) (allocate : Nat → Except Nat Nat) (hw : 1 < w) :
    (∀ (init : ArraySize) (k pos : Nat), k < w → init.T.align = 2 ^ k → pos < 2 ^ w →
        addRequiredBytes w init pos
          = (pos + padTo pos (2 ^ k) + init.m_count * init.T.size) % 2 ^ w)
    ∧ numElements w [⟨⟨2, 1⟩, 2 ^ (w - 1) + 1⟩] * sizeofStorage [⟨2, 1⟩] = 2
    ∧ numElements w [⟨⟨2, 1⟩, 2 ^ (w - 1) + 1⟩] * sizeofStorage [⟨2, 1⟩]
        < (2 ^ (w - 1) + 1) * 2
    ∧ (make_contiguous_layout w allocate [⟨⟨2, 1⟩, 2 ^ (w - 1) + 1⟩]).1 = [Event.allocate 2]
    ∧ (∀ amem, allocate 2 = .ok amem →
        (make_contiguous_layout w allocate [⟨⟨2, 1⟩, 2 ^ (w - 1) + 1⟩]).2
          = .ok (setRangeAll w [⟨⟨2, 1⟩, 2 ^ (w - 1) + 1⟩] amem)) := by
  have hpow : (2 ^ (w - 1) + 1) * 2 = 2 ^ w + 2 := by
    have : 2 ^ (w - 1) * 2 = 2 ^ w := by rw [← pow_succ]; congr 1; omega
    omega
  have h4 : 2 ^ 2 ≤ 2 ^ w := Nat.pow_le_pow_right (by decide) hw
  have h2 : 2 < 2 ^ w := by omega
  have hstep : addRequiredBytes w ⟨⟨2, 1⟩, 2 ^ (w - 1) + 1⟩ 0 = 2 := by
    rw [addRequiredBytes_eq_mod w _ 0 0 (by omega) rfl (Nat.two_pow_pos w)]
    simp only [hpow, padTo, pow_zero, Nat.mod_one, Nat.sub_zero, Nat.zero_add, Nat.add_zero]
    rw [Nat.add_mod_left, Nat.mod_eq_of_lt h2]
  have hfd : findDistanceOfNextAlignedPosition w 2 1 = 0 := by
    have := findDistance_eq_padTo w 0 2 (by omega) h2
    rw [pow_zero] at this
    rw [this]
    simp [padTo]
  have hn : numElements w [⟨⟨2, 1⟩, 2 ^ (w - 1) + 1⟩] = 2 := by
    simp only [numElements, paddedNumBytes, addRequiredBytesAll, hstep, List.map_cons,
      List.map_nil, sizeofStorage, alignofStorage, List.foldl_cons, List.foldl_nil, max_self,
      hfd, Nat.add_zero, wrap_of_lt w 2 h2, Nat.div_one]
  have hs : sizeofStorage [⟨2, 1⟩] = 1 := rfl
  refine ⟨fun init k pos hk ha hpos => addRequiredBytes_eq_mod w init k pos hk ha hpos,
    by rw [hn, hs], by rw [hn, hs, hpow]; omega, ?_, ?_⟩
  · simp only [make_contiguous_layout, hn]
    split <;> rfl
  · intro amem ham
    simp only [make_contiguous_layout, hn, ham]

/-- On 64-bit words `2 ^ 63 + 1` two-byte elements are given a two-byte region. -/
theorem numBytes_wraps_unchecked_witness :
    make_contiguous_layout 64 (fun _ => .ok 4096) [⟨⟨2, 1⟩, 2 ^ (64 - 1) + 1⟩]
      = ([Event.allocate 2], .ok [⟨⟨2, 1⟩, 4096, 4098⟩])
    ∧ numElements 64 [⟨⟨2, 1⟩, 2 ^ (64 - 1) + 1⟩] * sizeofStorage [⟨2, 1⟩] = 2
    ∧ numElements 64 [⟨⟨2, 1⟩, 2 ^ (64 - 1) + 1⟩] * sizeofStorage [⟨2, 1⟩]
        < (2 ^ (64 - 1) + 1) * 2 :=
  ⟨rfl, (numBytes_wraps_unchecked 64 (fun _ => .ok 4096) (by decide)).2.1,
    (numBytes_wraps_unchecked 64 (fun _ => .ok 4096) (by decide)).2.2.1⟩

end xtd
